import Mathlib

/-!
# Port-scanner: process attribution, classification and project location

A shallow embedding of the parsing and classification code of
`scanner/macos.go` and `scanner/process_analyzer.go` and of the scan loop of
`main.go`, followed by the properties proved about it.

Conventions of the embedding.

* A Go `string` is a list of Unicode code points (`GoString`); the texts
  handled here are the outputs of `ps` and `lsof`, taken to be valid UTF-8.
* A Go `int` is a Lean `Int`; the scanner runs on macOS (64-bit), so the
  only place where the width of `int` is observable is `strconv.Atoi`,
  which rejects values outside `[-2^63, 2^63)`.
* The outcome of an external command (`exec.Command(...).Output()`) and the
  state of the filesystem (`os.Stat`) are inputs of the embedded functions.
* The functions of the Go standard library used by the code (`strings`,
  `strconv`, `path/filepath`, `unicode`) are embedded from their documented
  behaviour on Unix.  The case tables of `unicode.ToLower` and
  `unicode.ToUpper` for non-ASCII code points are parameters (`tbl`, `utbl`).
-/

namespace PortScanner

/-- Go `string`: a sequence of Unicode code points. -/
abbrev GoString := List Char

deriving instance DecidableEq for Except

/-! ## `unicode` and `strings` -/

/-- Go `unicode.ToLower`: ASCII letters are folded arithmetically, every other
ASCII code point is unchanged, and a non-ASCII code point is looked up in the
Unicode case table `tbl`. -/
def toLowerRune (tbl : Char → Char) (c : Char) : Char :=
  if c.toNat < 128 then
    if 65 ≤ c.toNat ∧ c.toNat ≤ 90 then Char.ofNat (c.toNat + 32) else c
  else tbl c

/-- Go `strings.ToLower`. -/
def ToLower (tbl : Char → Char) (s : GoString) : GoString :=
  s.map (toLowerRune tbl)

/-- Go `unicode.IsSpace`: the code points with the Unicode White_Space
property. -/
def isSpace (c : Char) : Bool :=
  let n := c.toNat
  (9 ≤ n && n ≤ 13) || n == 32 || n == 0x85 || n == 0xA0 || n == 0x1680 ||
  (0x2000 ≤ n && n ≤ 0x200A) || n == 0x2028 || n == 0x2029 || n == 0x202F ||
  n == 0x205F || n == 0x3000

/-- Go `strings.HasPrefix`. -/
def HasPrefix : GoString → GoString → Bool
  | _, [] => true
  | [], _ :: _ => false
  | c :: s, d :: p => c == d && HasPrefix s p

/-- Go `strings.Contains`: `sub` occurs in `s` as a contiguous block. -/
def Contains : GoString → GoString → Bool
  | [], sub => HasPrefix [] sub
  | c :: s, sub => HasPrefix (c :: s) sub || Contains s sub

/-- Go `strings.TrimSpace`: leading and trailing white space removed. -/
def TrimSpace (s : GoString) : GoString :=
  ((s.dropWhile isSpace).reverse.dropWhile isSpace).reverse

/-- Go `strings.Split(s, sep)` for a separator of one code point (the code
only ever splits on a line feed).  The result is never empty. -/
def Split (s : GoString) (sep : Char) : List GoString :=
  match s with
  | [] => [[]]
  | c :: cs =>
    if c = sep then [] :: Split cs sep
    else
      match Split cs sep with
      | [] => [[c]]
      | l :: ls => (c :: l) :: ls

/-- The loop of Go `strings.Fields`: `cur` is the field being read (reversed),
`none` between fields. -/
def fieldsAux : Option GoString → GoString → List GoString
  | none, [] => []
  | some cur, [] => [cur.reverse]
  | none, c :: cs => if isSpace c then fieldsAux none cs else fieldsAux (some [c]) cs
  | some cur, c :: cs =>
    if isSpace c then cur.reverse :: fieldsAux none cs else fieldsAux (some (c :: cur)) cs

/-- Go `strings.Fields`: the maximal runs of non-space code points. -/
def Fields (s : GoString) : List GoString := fieldsAux none s

/-- Go `strings.Index(s, sep)` for a separator of one code point: the position
of its first occurrence, `none` for Go's `-1`.  Positions count code points;
the code uses them only to cut the string right before or after an ASCII
separator, where cutting by bytes and by code points agree. -/
def Index : GoString → Char → Option Nat
  | [], _ => none
  | x :: xs, c =>
    if x = c then some 0
    else
      match Index xs c with
      | some i => some (i + 1)
      | none => none

/-- Go `strings.LastIndex(s, sep)` for a separator of one code point: the
position of its last occurrence, `none` for Go's `-1`. -/
def LastIndex : GoString → Char → Option Nat
  | [], _ => none
  | x :: xs, c =>
    match LastIndex xs c with
    | some i => some (i + 1)
    | none => if x = c then some 0 else none

/-! ## `strconv` and `fmt` -/

/-- The value of a decimal digit, `none` for any other code point. -/
def digitVal (c : Char) : Option Nat :=
  if 48 ≤ c.toNat ∧ c.toNat ≤ 57 then some (c.toNat - 48) else none

/-- The digit loop of `strconv.Atoi`: `acc` is the value read so far. -/
def parseDigits : GoString → Nat → Option Nat
  | [], acc => some acc
  | c :: cs, acc =>
    match digitVal c with
    | some d => parseDigits cs (acc * 10 + d)
    | none => none

/-- Go `strconv.Atoi` on a 64-bit platform; `none` stands for a non-nil error
(a syntax error, or a range error when the value does not fit `int`).
An optional sign is followed by one or more decimal digits. -/
def Atoi (s : GoString) : Option Int :=
  match s with
  | [] => none
  | c :: rest =>
    if c = '-' then
      match rest with
      | [] => none
      | _ :: _ =>
        match parseDigits rest 0 with
        | some n => if n ≤ 2 ^ 63 then some (-(n : Int)) else none
        | none => none
    else if c = '+' then
      match rest with
      | [] => none
      | _ :: _ =>
        match parseDigits rest 0 with
        | some n => if n < 2 ^ 63 then some (n : Int) else none
        | none => none
    else
      match parseDigits (c :: rest) 0 with
      | some n => if n < 2 ^ 63 then some (n : Int) else none
      | none => none

/-- The character of a decimal digit. -/
def digitChar (d : Nat) : Char := Char.ofNat (48 + d)

/-- Decimal digits of `n`, most significant first; `fuel` bounds the number of
digits. -/
def formatNatAux : Nat → Nat → GoString
  | 0, _ => []
  | fuel + 1, n =>
    if n < 10 then [digitChar n] else formatNatAux fuel (n / 10) ++ [digitChar (n % 10)]

/-- The decimal text of a natural number. -/
def FormatNat (n : Nat) : GoString := formatNatAux (n + 1) n

/-- Go `fmt.Sprintf("%d", i)`: the decimal text of an `int`. -/
def FormatInt (i : Int) : GoString :=
  if i < 0 then '-' :: FormatNat i.natAbs else FormatNat i.toNat

/-! ## `path/filepath` (Unix) -/

/-- Path elements joined by single slashes. -/
def joinSlash : List GoString → GoString
  | [] => []
  | [x] => x
  | x :: y :: rest => x ++ '/' :: joinSlash (y :: rest)

/-- One element of the path read by `filepath.Clean`.  `stack` holds the
elements kept so far, the last one first.  Empty elements and `.` are dropped;
`..` removes the element before it when there is one that is not itself `..`,
is dropped at the top of a rooted path, and is kept otherwise. -/
def cleanStep (rooted : Bool) (stack : List GoString) (comp : GoString) : List GoString :=
  if comp = [] ∨ comp = ".".toList then stack
  else if comp = "..".toList then
    match stack with
    | top :: below => if top = "..".toList then comp :: stack else below
    | [] => if rooted then [] else [comp]
  else comp :: stack

/-- Go `filepath.Clean`: the shortest path name equivalent to `path` by purely
lexical processing. -/
def Clean (path : GoString) : GoString :=
  let rooted := HasPrefix path "/".toList
  let stack := (Split path '/').foldl (cleanStep rooted) []
  let body := joinSlash stack.reverse
  let out := if rooted then '/' :: body else body
  if out = [] then ".".toList else out

/-- Go `filepath.Join` of two elements: empty elements are ignored and the
result is cleaned. -/
def Join (a b : GoString) : GoString :=
  if a = [] then (if b = [] then [] else Clean b)
  else Clean (a ++ '/' :: b)

/-- Go `filepath.Dir`: all but the last element of `path`, cleaned. -/
def Dir (path : GoString) : GoString :=
  match LastIndex path '/' with
  | some i => Clean (path.take (i + 1))
  | none => Clean []

/-! ## `scanner/process_info.go` -/

/-- The record `ProcessAnalysis`. -/
structure ProcessAnalysis where
  PID : Int
  Name : GoString
  CommandLine : GoString
  WorkingDir : GoString
  User : GoString
  Technology : GoString
  ServiceType : GoString
  DetectedPorts : List Int
  ProjectPath : GoString
  ConfigFiles : List GoString
deriving DecidableEq

/-! ## `scanner/process_analyzer.go`: classification -/

/-- `MacProcessAnalyzer.detectTechnology`. -/
def detectTechnology (tbl : Char → Char) (analysis : ProcessAnalysis) : GoString :=
  let cmd := ToLower tbl analysis.CommandLine
  let name := ToLower tbl analysis.Name
  -- Node.js detection
  if Contains cmd "node".toList || Contains cmd "npm".toList ||
      Contains cmd "npx".toList || name == "node".toList then
    "node".toList
  -- Python detection
  else if Contains cmd "python".toList || Contains cmd "python3".toList ||
      Contains cmd "streamlit".toList || Contains cmd "fastapi".toList ||
      Contains cmd "flask".toList || Contains cmd "django".toList then
    "python".toList
  -- Postgres detection
  else if Contains name "postgres".toList || Contains cmd "postgres".toList then
    "postgres".toList
  -- Redis detection
  else if Contains name "redis".toList || Contains cmd "redis".toList then
    "redis".toList
  -- Java detection
  else if Contains cmd "java".toList || Contains name "java".toList then
    "java".toList
  -- Go detection
  else if Contains cmd "go".toList && !Contains cmd "google".toList then
    "go".toList
  -- Browser detection
  else if Contains name "firefox".toList || Contains name "chrome".toList ||
      Contains name "safari".toList then
    "browser".toList
  else
    "unknown".toList

/-- `MacProcessAnalyzer.detectServiceType`: a switch on the technology already
stored in the record. -/
def detectServiceType (tbl : Char → Char) (analysis : ProcessAnalysis) : GoString :=
  let t := analysis.Technology
  if t = "node".toList ∨ t = "python".toList ∨ t = "go".toList ∨ t = "java".toList then
    -- Check if it's a web server
    if Contains (ToLower tbl analysis.CommandLine) "server".toList ||
        Contains (ToLower tbl analysis.CommandLine) "start".toList ||
        Contains (ToLower tbl analysis.CommandLine) "run".toList ||
        Contains (ToLower tbl analysis.CommandLine) "dev".toList then
      "web".toList
    else
      "cli".toList
  else if t = "postgres".toList ∨ t = "mysql".toList ∨ t = "mongod".toList then
    "database".toList
  else if t = "redis".toList ∨ t = "memcached".toList then
    "cache".toList
  else if t = "browser".toList then
    "browser".toList
  else
    "system".toList

/-- The two classification steps of `AnalyzeProcess`, in its order: the
technology is stored in the record before the service type is computed. -/
def classify (tbl : Char → Char) (analysis : ProcessAnalysis) : ProcessAnalysis :=
  let a1 := { analysis with Technology := detectTechnology tbl analysis }
  { a1 with ServiceType := detectServiceType tbl a1 }

/-! ## `scanner/process_analyzer.go`: project root -/

/-- The marker table of `FindProjectRoot`. -/
def projectMarkers : List GoString :=
  [ "package.json".toList,
    "go.mod".toList,
    "requirements.txt".toList,
    "pom.xml".toList,
    "docker-compose.yml".toList,
    "docker-compose.yaml".toList,
    ".git".toList,
    "Cargo.toml".toList,
    "Gemfile".toList,
    "pyproject.toml".toList,
    "composer.json".toList ]

/-- The inner loop of `FindProjectRoot` over the marker table: every marker
path for which `os.Stat` succeeds (`fs`) is appended to `configFiles`. -/
def checkMarkers (fs : GoString → Bool) (dir : GoString) :
    List GoString → List GoString → List GoString
  | [], configFiles => configFiles
  | marker :: rest, configFiles =>
    let markerPath := Join dir marker
    if fs markerPath then checkMarkers fs dir rest (configFiles ++ [markerPath])
    else checkMarkers fs dir rest configFiles

/-- The loop `for dir != "/"` of `FindProjectRoot`; `none` when `fuel`
iterations were not enough to leave it. -/
def findProjectRootLoop (fs : GoString → Bool) (workingDir : GoString) :
    Nat → GoString → List GoString → Option (GoString × List GoString)
  | 0, _, _ => none
  | fuel + 1, dir, configFiles =>
    if dir = "/".toList then some (workingDir, configFiles)
    else
      -- Check for project markers
      let configFiles := checkMarkers fs dir projectMarkers configFiles
      -- If we found any config files, this is likely the project root
      if configFiles.length > 0 then some (dir, configFiles)
      else
        -- Move up one directory
        let parent := Dir dir
        if parent = dir then some (workingDir, configFiles)
        else findProjectRootLoop fs workingDir fuel parent configFiles

/-- `MacProcessAnalyzer.FindProjectRoot`; `fs path` tells whether `os.Stat`
succeeds on `path`.  The loop is run with a bound on its iterations that
`FindProjectRoot_total` shows is never reached. -/
def FindProjectRoot (fs : GoString → Bool) (workingDir : GoString) :
    Option (GoString × List GoString) :=
  if workingDir = [] then some ([], [])
  else findProjectRootLoop fs workingDir (workingDir.length + 3) workingDir []

/-! ## `scanner/process_analyzer.go`: ports of a process -/

/-- The membership loop of `ExtractPortsFromProcess` (`found`). -/
def portFound : List Int → Int → Bool
  | [], _ => false
  | p :: ps, port => if p = port then true else portFound ps port

/-- The body of the parsing loop of `ExtractPortsFromProcess` for one
non-empty data line: the port list after the line. -/
def extractLine (line : GoString) (ports : List Int) : List Int :=
  let fields := Fields line
  if 9 ≤ fields.length then
    let nodeField := fields.getD 8 []
    match LastIndex nodeField ':' with
    | some idx =>
      let portStr := nodeField.drop (idx + 1)
      -- Remove trailing stuff like (LISTEN)
      let portStr :=
        match Index portStr ' ' with
        | some parenIdx => portStr.take parenIdx
        | none => portStr
      if portStr = "*".toList then ports
      else
        match Atoi portStr with
        | some port => if portFound ports port then ports else ports ++ [port]
        | none => ports
    | none => ports
  else ports

/-- The parsing loop of `ExtractPortsFromProcess`; `i` is the index of the
first line of `lines`. -/
def extractLoop : Nat → List GoString → List Int → List Int
  | _, [], ports => ports
  | i, line :: rest, ports =>
    if i = 0 then extractLoop (i + 1) rest ports
    else if line = [] then extractLoop (i + 1) rest ports
    else extractLoop (i + 1) rest (extractLine line ports)

/-- `MacProcessAnalyzer.ExtractPortsFromProcess`; `run` is the outcome of
the `lsof -p <pid> -i -P -n` command. -/
def ExtractPortsFromProcess (run : Except GoString GoString) : Except GoString (List Int) :=
  match run with
  | .error err => .error err
  | .ok output => .ok (extractLoop 0 (Split output '\n') [])

/-! ## `scanner/macos.go` -/

/-- `MacScanner.getMemoryUsage`; `run` is the outcome of the
`ps -p <pid> -o rss=` command.  Go's `/` on `int` truncates. -/
def getMemoryUsage (run : Except GoString GoString) : GoString :=
  match run with
  | .error _ => "unknown".toList
  | .ok output =>
    let rss := TrimSpace output
    match Atoi rss with
    | some rssKB => FormatInt (rssKB.tdiv 1024) ++ "MB".toList
    | none => rss ++ "KB".toList

/-- The parsing loop of `findWithLsof`; `i` is the index of the first line of
`lines`. -/
def findWithLsofLoop : Nat → List GoString → Except GoString (GoString × Int)
  | _, [] => .error "no process found in lsof output".toList
  | i, line :: rest =>
    if i = 0 then findWithLsofLoop (i + 1) rest
    else if line = [] then findWithLsofLoop (i + 1) rest
    else
      match Fields line with
      | processName :: pidField :: _ =>
        match Atoi pidField with
        | some pid => .ok (processName, pid)
        | none => findWithLsofLoop (i + 1) rest
      | _ => findWithLsofLoop (i + 1) rest

/-- `MacScanner.findWithLsof`; `run` is the outcome of the
`lsof -i :<port> -P` command. -/
def findWithLsof (run : Except GoString GoString) : Except GoString (GoString × Int) :=
  match run with
  | .error err => .error err
  | .ok output =>
    let lines := Split (TrimSpace output) '\n'
    if lines.length ≤ 1 then .error "no lsof output".toList
    else findWithLsofLoop 0 lines

/-! ## `scanner/scanner.go` and the port check of `scanner/macos.go` -/

/-- The record `PortStatus`. -/
structure PortStatus where
  Port : Int
  IsAvailable : Bool
  ProcessName : GoString
  PID : Int
  Error : GoString
  User : GoString
  CommandLine : GoString
  StartTime : GoString
  MemoryUsage : GoString
deriving DecidableEq

/-- What the operating system answers during one call of `CheckPort`:
whether `net.Listen` on a port succeeds, and the outcome of each external
command, by port or by pid.  An error is held as its message. -/
structure System where
  listen : Int → Bool
  lsof : Int → Except GoString GoString
  psUser : Int → Except GoString GoString
  psCommand : Int → Except GoString GoString
  psRss : Int → Except GoString GoString
  psLstart : Int → Except GoString GoString

/-- `MacScanner.isPortAvailable`: the listener is closed at once when the bind
succeeds. -/
def isPortAvailable (sys : System) (port : Int) : Bool :=
  if sys.listen port then true else false

/-- `MacScanner.getProcessUser`; `run` is the outcome of `ps -p <pid> -o user=`. -/
def getProcessUser (run : Except GoString GoString) : GoString :=
  match run with
  | .error _ => "unknown".toList
  | .ok output => TrimSpace output

/-- `MacScanner.getCommandLine`; `run` is the outcome of
`ps -p <pid> -o command=`. -/
def getCommandLine (run : Except GoString GoString) : GoString :=
  match run with
  | .error _ => "unknown".toList
  | .ok output => TrimSpace output

/-- `MacScanner.getStartTime`; `run` is the outcome of
`ps -p <pid> -o lstart=`. -/
def getStartTime (run : Except GoString GoString) : GoString :=
  match run with
  | .error _ => "unknown".toList
  | .ok output => TrimSpace output

/-- `MacScanner.CheckPort`: the status and the returned `error` (`none` for
`nil`, which is what every path returns). -/
def CheckPort (sys : System) (port : Int) : PortStatus × Option GoString :=
  let status : PortStatus :=
    { Port := port, IsAvailable := false, ProcessName := [], PID := 0, Error := [],
      User := [], CommandLine := [], StartTime := [], MemoryUsage := [] }
  if isPortAvailable sys port then
    ({ status with IsAvailable := true }, none)
  else
    match findWithLsof (sys.lsof port) with
    | .error err => ({ status with Error := err }, none)
    | .ok (process, pid) =>
      let status := { status with IsAvailable := false, ProcessName := process, PID := pid }
      -- detailed
      let status := { status with User := getProcessUser (sys.psUser pid) }
      let status := { status with CommandLine := getCommandLine (sys.psCommand pid) }
      let status := { status with MemoryUsage := getMemoryUsage (sys.psRss pid) }
      let status := { status with StartTime := getStartTime (sys.psLstart pid) }
      (status, none)

/-! ## `main.go`: the scan loop -/

/-- The loop of `scanPorts` over a port checker `check` (the interface
`PortScanner`); `i` counts the calls made so far, so that the checker may
answer differently from call to call. -/
def scanPortsLoop (check : Nat → Int → PortStatus × Option GoString) :
    Nat → List Int → List PortStatus → List PortStatus
  | _, [], statuses => statuses
  | i, port :: rest, statuses =>
    let (status, err) := check i port
    let status :=
      match err with
      | some e =>
        { Port := port, IsAvailable := false, ProcessName := [], PID := 0, Error := e,
          User := [], CommandLine := [], StartTime := [], MemoryUsage := [] }
      | none => status
    scanPortsLoop check (i + 1) rest (statuses ++ [status])

/-- The status list built by `scanPorts`, which it hands to the printer chosen
by `format`.  The checker is the one of `scanner.NewScanner()`, a `MacScanner`;
`env i` is the system as the `i`-th call finds it. -/
def scanPorts (env : Nat → System) (ports : List Int) : List PortStatus :=
  scanPortsLoop (fun i port => CheckPort (env i) port) 0 ports []

/-! ## Vocabulary of the properties -/

/-- A record with the given process name and command line, every other field
zero. -/
def processOf (name cmd : String) : ProcessAnalysis :=
  { PID := 0, Name := name.toList, CommandLine := cmd.toList, WorkingDir := [], User := [],
    Technology := [], ServiceType := [], DetectedPorts := [], ProjectPath := [],
    ConfigFiles := [] }

/-- The condition of the Node.js rule of `detectTechnology`. -/
def nodeRule (tbl : Char → Char) (a : ProcessAnalysis) : Bool :=
  Contains (ToLower tbl a.CommandLine) "node".toList ||
  Contains (ToLower tbl a.CommandLine) "npm".toList ||
  Contains (ToLower tbl a.CommandLine) "npx".toList ||
  ToLower tbl a.Name == "node".toList

/-- The condition of the Python rule of `detectTechnology`. -/
def pythonRule (tbl : Char → Char) (a : ProcessAnalysis) : Bool :=
  Contains (ToLower tbl a.CommandLine) "python".toList ||
  Contains (ToLower tbl a.CommandLine) "python3".toList ||
  Contains (ToLower tbl a.CommandLine) "streamlit".toList ||
  Contains (ToLower tbl a.CommandLine) "fastapi".toList ||
  Contains (ToLower tbl a.CommandLine) "flask".toList ||
  Contains (ToLower tbl a.CommandLine) "django".toList

/-- The condition of the Postgres rule of `detectTechnology`. -/
def postgresRule (tbl : Char → Char) (a : ProcessAnalysis) : Bool :=
  Contains (ToLower tbl a.Name) "postgres".toList ||
  Contains (ToLower tbl a.CommandLine) "postgres".toList

/-- The condition of the Redis rule of `detectTechnology`. -/
def redisRule (tbl : Char → Char) (a : ProcessAnalysis) : Bool :=
  Contains (ToLower tbl a.Name) "redis".toList ||
  Contains (ToLower tbl a.CommandLine) "redis".toList

/-- The condition of the Java rule of `detectTechnology`. -/
def javaRule (tbl : Char → Char) (a : ProcessAnalysis) : Bool :=
  Contains (ToLower tbl a.CommandLine) "java".toList ||
  Contains (ToLower tbl a.Name) "java".toList

/-- Some rule placed before the Go rule matches. -/
def earlierRule (tbl : Char → Char) (a : ProcessAnalysis) : Bool :=
  nodeRule tbl a || pythonRule tbl a || postgresRule tbl a || redisRule tbl a ||
  javaRule tbl a

/-- A data row of the socket-owner listing that the parsing step cannot use:
fewer than two fields, or a second field that is not an integer. -/
def unparseable (line : GoString) : Bool :=
  match Fields line with
  | _ :: pidField :: _ => (Atoi pidField).isNone
  | _ => true

/-- The port that a descriptor row carries for `ExtractPortsFromProcess`: what
the loop body appends when no port has been recorded yet. -/
def linePort (line : GoString) : Option Int := (extractLine line []).head?

/-- A sequence with every value kept at its first occurrence only. -/
def keepFirst : List Int → List Int
  | [] => []
  | x :: xs => x :: (keepFirst xs).filter (fun y => decide (y ≠ x))

/-- The record step of `ExtractPortsFromProcess`: append unless present. -/
def addPort (ports : List Int) (port : Int) : List Int :=
  if port ∈ ports then ports else ports ++ [port]

/-- The marker paths present in `dir`, in the order of the marker table. -/
def markersIn (fs : GoString → Bool) (dir : GoString) : List GoString :=
  (projectMarkers.map (Join dir)).filter fs

/-- The `k`-th directory above `dir`: `filepath.Dir` applied `k` times. -/
def ancestor (dir : GoString) (k : Nat) : GoString := Dir^[k] dir

/-- The filesystem in which exactly the listed paths exist. -/
def fsOf (paths : List String) : GoString → Bool :=
  fun p => (paths.map String.toList).contains p

/-- Size of the elements of a path, one more than its length for each. -/
def weight : List GoString → Nat
  | [] => 0
  | x :: xs => x.length + 1 + weight xs

/-- A bound on the number of iterations that the walk of `FindProjectRoot`
still makes from `dir`. -/
def walkMeasure (dir : GoString) : Nat :=
  if dir = "/".toList then 0 else if dir = ".".toList then 1 else dir.length + 2

/-- Go `unicode.ToUpper`, the counterpart of `toLowerRune`: ASCII letters are
folded arithmetically and a non-ASCII code point is looked up in the Unicode
case table `utbl`. -/
def toUpperRune (utbl : Char → Char) (c : Char) : Char :=
  if c.toNat < 128 then
    if 97 ≤ c.toNat ∧ c.toNat ≤ 122 then Char.ofNat (c.toNat - 32) else c
  else utbl c

/-- Go `strings.ToUpper`. -/
def ToUpper (utbl : Char → Char) (s : GoString) : GoString :=
  s.map (toUpperRune utbl)

/-- The record `a` with another process name and command line. -/
def withText (a : ProcessAnalysis) (name cmd : GoString) : ProcessAnalysis :=
  { a with Name := name, CommandLine := cmd }

/-- The condition under which `detectServiceType` calls a runtime a web
server: an action keyword in the lower-cased command line. -/
def webKeyword (tbl : Char → Char) (a : ProcessAnalysis) : Bool :=
  Contains (ToLower tbl a.CommandLine) "server".toList ||
  Contains (ToLower tbl a.CommandLine) "start".toList ||
  Contains (ToLower tbl a.CommandLine) "run".toList ||
  Contains (ToLower tbl a.CommandLine) "dev".toList

/-- A system in which the bind test succeeds on the listed ports only and
every external command gives the listed output or fails. -/
def systemOf (free : List Int) (lsofOut psOut : Option String) : System :=
  let run : Option String → Except GoString GoString := fun o =>
    match o with
    | some out => .ok out.toList
    | none => .error "exit status 1".toList
  { listen := fun port => free.contains port,
    lsof := fun _ => run lsofOut,
    psUser := fun _ => run psOut,
    psCommand := fun _ => run psOut,
    psRss := fun _ => run psOut,
    psLstart := fun _ => run psOut }

/-- The status of `port` with every other field empty, zero or false. -/
def emptyStatus (port : Int) : PortStatus :=
  { Port := port, IsAvailable := false, ProcessName := [], PID := 0, Error := [],
    User := [], CommandLine := [], StartTime := [], MemoryUsage := [] }

/-- The status that `scanPorts` records for `port` from the answer `r` of the
checker: the checker's status, or a status holding the error it returned. -/
def scanStatus (port : Int) (r : PortStatus × Option GoString) : PortStatus :=
  match r.2 with
  | some e => { emptyStatus port with Error := e }
  | none => r.1

/-- One status per port, in the order of the ports; `i` is the number of the
first call. -/
def scanStatuses (check : Nat → Int → PortStatus × Option GoString) :
    Nat → List Int → List PortStatus
  | _, [] => []
  | i, port :: rest => scanStatus port (check i port) :: scanStatuses check (i + 1) rest

/-! ## The embedded library functions meet their description -/

/-- `strings.HasPrefix` is the prefix relation on lists. -/
theorem HasPrefix_iff : ∀ s p : GoString, HasPrefix s p = true ↔ p <+: s
  | _, [] => by simp [HasPrefix]
  | [], d :: p => by simp [HasPrefix]
  | c :: s, d :: p => by
    simp only [HasPrefix, Bool.and_eq_true, beq_iff_eq, HasPrefix_iff s p,
      List.cons_prefix_cons]
    constructor
    · rintro ⟨h1, h2⟩
      exact ⟨h1.symm, h2⟩
    · rintro ⟨h1, h2⟩
      exact ⟨h1.symm, h2⟩

/-- `strings.Contains` is the contiguous-sublist relation on lists. -/
theorem Contains_iff : ∀ s sub : GoString, Contains s sub = true ↔ sub <:+: s
  | [], sub => by
    cases sub <;> simp [Contains, HasPrefix]
  | c :: s, sub => by
    rw [Contains, Bool.or_eq_true, HasPrefix_iff, Contains_iff s sub, List.infix_cons_iff]

/-- The result of `strings.Split` is never empty. -/
theorem Split_cons (sep : Char) : ∀ s : GoString, ∃ first rest, Split s sep = first :: rest
  | [] => ⟨[], [], rfl⟩
  | c :: cs => by
    obtain ⟨f, r, h⟩ := Split_cons sep cs
    by_cases hc : c = sep
    · exact ⟨[], f :: r, by simp [Split, hc, h]⟩
    · exact ⟨c :: f, r, by simp [Split, hc, h]⟩

/-- No piece of `strings.Split` holds the separator. -/
theorem Split_no_sep (sep : Char) : ∀ s : GoString, ∀ piece ∈ Split s sep, sep ∉ piece
  | [], piece, h => by
    simp only [Split, List.mem_singleton] at h
    simp [h]
  | c :: cs, piece, h => by
    have ih := Split_no_sep sep cs
    by_cases hc : c = sep
    · simp only [Split, hc, if_true, List.mem_cons] at h
      rcases h with h | h
      · simp [h]
      · exact ih piece h
    · simp only [Split, hc, if_false] at h
      cases hs : Split cs sep with
      | nil =>
        simp only [hs, List.mem_singleton] at h
        subst h
        intro hm
        simp only [List.mem_singleton] at hm
        exact hc hm.symm
      | cons l ls =>
        rw [hs] at h ih
        rcases List.mem_cons.1 h with h | h
        · subst h
          intro hm
          rcases List.mem_cons.1 hm with e | e
          · exact hc e.symm
          · exact ih l (List.mem_cons_self _ _) e
        · exact ih piece (List.mem_cons_of_mem _ h)

/-- The pieces of `strings.Split`, put together with the separator, give the
text back. -/
theorem Split_intercalate (sep : Char) :
    ∀ s : GoString, List.intercalate [sep] (Split s sep) = s
  | [] => rfl
  | c :: cs => by
    have ih := Split_intercalate sep cs
    obtain ⟨l, ls, hs⟩ := Split_cons sep cs
    rw [hs] at ih
    by_cases hc : c = sep
    · simp only [Split, hc, if_true, hs]
      rw [← ih]
      simp [List.intercalate, List.intersperse]
    · simp only [Split, hc, if_false, hs]
      rw [← ih]
      cases ls <;> simp [List.intercalate, List.intersperse]

theorem fieldsAux_no_space :
    ∀ (s : GoString) (cur : Option GoString),
      (∀ x, cur = some x → x ≠ [] ∧ ∀ c ∈ x, isSpace c = false) →
      ∀ f ∈ fieldsAux cur s, f ≠ [] ∧ ∀ c ∈ f, isSpace c = false
  | [], none, _, f, hf => by simp [fieldsAux] at hf
  | [], some x, hx, f, hf => by
    simp only [fieldsAux, List.mem_singleton] at hf
    subst hf
    obtain ⟨h1, h2⟩ := hx x rfl
    exact ⟨by simpa using h1, fun c hc => h2 c (List.mem_reverse.1 hc)⟩
  | c :: cs, none, _, f, hf => by
    simp only [fieldsAux] at hf
    split_ifs at hf with hsp
    · exact fieldsAux_no_space cs none (fun x hx => by cases hx) f hf
    · refine fieldsAux_no_space cs (some [c]) ?_ f hf
      intro x hx
      cases hx
      exact ⟨by simp, fun d hd => by
        rw [List.mem_singleton] at hd
        subst hd
        simpa using hsp⟩
  | c :: cs, some x, hx, f, hf => by
    obtain ⟨h1, h2⟩ := hx x rfl
    simp only [fieldsAux] at hf
    split_ifs at hf with hsp
    · rcases List.mem_cons.1 hf with hf | hf
      · subst hf
        exact ⟨by simpa using h1, fun d hd => h2 d (List.mem_reverse.1 hd)⟩
      · exact fieldsAux_no_space cs none (fun y hy => by cases hy) f hf
    · refine fieldsAux_no_space cs (some (c :: x)) ?_ f hf
      intro y hy
      cases hy
      refine ⟨by simp, fun d hd => ?_⟩
      rcases List.mem_cons.1 hd with e | e
      · subst e
        simpa using hsp
      · exact h2 d e

/-- Every field of `strings.Fields` is non-empty and free of white space. -/
theorem Fields_no_space (s f : GoString) (hf : f ∈ Fields s) :
    f ≠ [] ∧ ∀ c ∈ f, isSpace c = false :=
  fieldsAux_no_space s none (fun x hx => by cases hx) f hf

/-! ## Classification -/

/-- The technology is decided by the rules in their order: the first rule whose
condition holds gives the tag. -/
theorem detectTechnology_eq (tbl : Char → Char) (a : ProcessAnalysis) :
    detectTechnology tbl a =
      if nodeRule tbl a then "node".toList
      else if pythonRule tbl a then "python".toList
      else if postgresRule tbl a then "postgres".toList
      else if redisRule tbl a then "redis".toList
      else if javaRule tbl a then "java".toList
      else if Contains (ToLower tbl a.CommandLine) "go".toList &&
          !Contains (ToLower tbl a.CommandLine) "google".toList then "go".toList
      else if Contains (ToLower tbl a.Name) "firefox".toList ||
          Contains (ToLower tbl a.Name) "chrome".toList ||
          Contains (ToLower tbl a.Name) "safari".toList then "browser".toList
      else "unknown".toList := rfl

/-- C1, as the code has it: the guard of the Go rule reads the command line.
Whenever the lower-cased command line contains "google", the technology is
not "go". -/
theorem detectTechnology_google_cmd_not_go (tbl : Char → Char) (a : ProcessAnalysis)
    (h : Contains (ToLower tbl a.CommandLine) "google".toList = true) :
    detectTechnology tbl a ≠ "go".toList := by
  rw [detectTechnology_eq]
  simp only [h, Bool.not_true, Bool.and_false]
  split_ifs <;> first | contradiction | decide

/-- C1, witness: Chrome started from `/opt/google/chrome`. -/
theorem detectTechnology_google_cmd_not_go_witness :
    Contains (ToLower id (processOf "google-chrome"
        "/opt/google/chrome/chrome --type=renderer").CommandLine) "google".toList = true ∧
    detectTechnology id (processOf "google-chrome"
        "/opt/google/chrome/chrome --type=renderer") ≠ "go".toList :=
  ⟨by decide, detectTechnology_google_cmd_not_go id _ (by decide)⟩

/-- C1, counterexample: the process name `google-chrome` contains "google", the
command line `chrome --user-data-dir=/tmp/go` contains "go" and not "google",
and the technology is "go", whatever the case table. -/
theorem detectTechnology_google_name_counterexample :
    (∀ tbl : Char → Char,
      Contains (ToLower tbl (processOf "google-chrome"
        "chrome --user-data-dir=/tmp/go").Name) "google".toList = true) ∧
    (∀ tbl : Char → Char,
      detectTechnology tbl (processOf "google-chrome"
        "chrome --user-data-dir=/tmp/go") = "go".toList) :=
  ⟨fun _ => rfl, fun _ => rfl⟩

/-- C9: the Node.js rule is the first one.  A command line whose lower-cased
text contains "node", "npm" or "npx" gives technology "node", whatever else
occurs in it and whatever the process name; and the command line
`node server.js` is classified as technology "node", service type "web", for
every process name. -/
theorem detectTechnology_node_first :
    (∀ (tbl : Char → Char) (a : ProcessAnalysis),
      (Contains (ToLower tbl a.CommandLine) "node".toList = true ∨
       Contains (ToLower tbl a.CommandLine) "npm".toList = true ∨
       Contains (ToLower tbl a.CommandLine) "npx".toList = true) →
      detectTechnology tbl a = "node".toList) ∧
    (∀ (tbl : Char → Char) (a : ProcessAnalysis),
      a.CommandLine = "node server.js".toList →
      (classify tbl a).Technology = "node".toList ∧
      (classify tbl a).ServiceType = "web".toList) := by
  refine ⟨fun tbl a h => ?_, fun tbl a h => ?_⟩
  · rw [detectTechnology_eq]
    have : nodeRule tbl a = true := by
      unfold nodeRule
      rcases h with h | h | h <;> simp only [h, Bool.true_or, Bool.or_true]
    rw [this, if_pos rfl]
  · have h1 : detectTechnology tbl a = "node".toList := by
      unfold detectTechnology
      rw [h]
      rfl
    refine ⟨h1, ?_⟩
    show detectServiceType tbl { a with Technology := detectTechnology tbl a } = _
    rw [h1]
    unfold detectServiceType
    simp only [h]
    rfl

/-- C9, witness: a command line that also names python, java and go. -/
theorem detectTechnology_node_first_witness :
    detectTechnology id (processOf "java" "python3 go.py --with nodemon") = "node".toList ∧
    (classify id (processOf "python" "node server.js")).ServiceType = "web".toList :=
  ⟨detectTechnology_node_first.1 id _ (Or.inl (by decide)),
   (detectTechnology_node_first.2 id (processOf "python" "node server.js") rfl).2⟩

/-- C10: when no earlier rule (node, python, postgres, redis, java) matches,
the technology is "go" exactly when the lower-cased command line contains "go"
and does not contain "google"; in particular the command line `go build ./...`
gives "go". -/
theorem detectTechnology_go_iff (tbl : Char → Char) (a : ProcessAnalysis)
    (h : earlierRule tbl a = false) :
    (detectTechnology tbl a = "go".toList ↔
      (Contains (ToLower tbl a.CommandLine) "go".toList = true ∧
       Contains (ToLower tbl a.CommandLine) "google".toList = false)) ∧
    (a.CommandLine = "go build ./...".toList → detectTechnology tbl a = "go".toList) := by
  unfold earlierRule at h
  simp only [Bool.or_eq_false_iff] at h
  obtain ⟨⟨⟨⟨h1, h2⟩, h3⟩, h4⟩, h5⟩ := h
  have key : detectTechnology tbl a =
      if Contains (ToLower tbl a.CommandLine) "go".toList &&
          !Contains (ToLower tbl a.CommandLine) "google".toList then "go".toList
      else if Contains (ToLower tbl a.Name) "firefox".toList ||
          Contains (ToLower tbl a.Name) "chrome".toList ||
          Contains (ToLower tbl a.Name) "safari".toList then "browser".toList
      else "unknown".toList := by
    rw [detectTechnology_eq]
    simp [h1, h2, h3, h4, h5]
  constructor
  · rw [key]
    constructor
    · intro hgo
      split_ifs at hgo with hc hb
      · simpa using hc
      · exact absurd hgo (by decide)
      · exact absurd hgo (by decide)
    · rintro ⟨hg, hn⟩
      rw [hg, hn]
      rfl
  · intro hcmd
    rw [key, hcmd]
    rfl

/-- C10, witness: the command line `go build ./...` of a process named `go`. -/
theorem detectTechnology_go_iff_witness :
    earlierRule id (processOf "go" "go build ./...") = false ∧
    detectTechnology id (processOf "go" "go build ./...") = "go".toList :=
  ⟨by decide, (detectTechnology_go_iff id (processOf "go" "go build ./...") (by decide)).2 rfl⟩

/-! ## Socket-owner listing (`findWithLsof`) -/

theorem Split_of_not_mem (sep : Char) : ∀ s : GoString, sep ∉ s → Split s sep = [s]
  | [], _ => rfl
  | c :: cs, h => by
    have hc : c ≠ sep := fun e => h (by simp [e])
    have ht : sep ∉ cs := fun e => h (List.mem_cons_of_mem _ e)
    simp [Split, hc, Split_of_not_mem sep cs ht]

/-- After the header the index of a line is not looked at any more. -/
theorem findWithLsofLoop_succ (lines : List GoString) :
    ∀ i : Nat, findWithLsofLoop (i + 1) lines = findWithLsofLoop 1 lines := by
  induction lines with
  | nil => intro i; rfl
  | cons line rest ih =>
    intro i
    unfold findWithLsofLoop
    simp only [Nat.succ_ne_zero, if_false, ih (i + 1), ih 1]

/-- The line of index 0 is skipped unread. -/
theorem findWithLsofLoop_header (header : GoString) (rows : List GoString) :
    findWithLsofLoop 0 (header :: rows) = findWithLsofLoop 1 rows := by
  rw [findWithLsofLoop]
  simp

theorem findWithLsofLoop_unparseable (line : GoString) (rest : List GoString)
    (h : unparseable line = true) :
    findWithLsofLoop 1 (line :: rest) = findWithLsofLoop 1 rest := by
  rw [findWithLsofLoop]
  simp only [Nat.succ_ne_zero, if_false, findWithLsofLoop_succ rest 1]
  split_ifs with he
  · rfl
  · unfold unparseable at h
    split
    · rename_i name pidField more hf
      rw [hf] at h
      simp only [Option.isNone_iff_eq_none] at h
      rw [h]
    · rfl

theorem findWithLsofLoop_all_unparseable :
    ∀ rows : List GoString, (∀ r ∈ rows, unparseable r = true) →
      findWithLsofLoop 1 rows = .error "no process found in lsof output".toList
  | [], _ => rfl
  | r :: rows, h => by
    rw [findWithLsofLoop_unparseable r rows (h r (List.mem_cons_self _ _))]
    exact findWithLsofLoop_all_unparseable rows (fun x hx => h x (List.mem_cons_of_mem _ hx))

theorem findWithLsofLoop_parsed (line : GoString) (rest : List GoString)
    (name pidField : GoString) (more : List GoString) (pid : Int)
    (hf : Fields line = name :: pidField :: more) (hp : Atoi pidField = some pid) :
    findWithLsofLoop 1 (line :: rest) = .ok (name, pid) := by
  have hne : line ≠ [] := by
    rintro rfl
    simp [Fields, fieldsAux] at hf
  rw [findWithLsofLoop]
  simp only [Nat.succ_ne_zero, if_false, hne, hf, hp]

theorem findWithLsofLoop_first_parsed (row : GoString) (post : List GoString)
    (name pidField : GoString) (more : List GoString) (pid : Int)
    (hf : Fields row = name :: pidField :: more) (hp : Atoi pidField = some pid) :
    ∀ pre : List GoString, (∀ r ∈ pre, unparseable r = true) →
      findWithLsofLoop 1 (pre ++ row :: post) = .ok (name, pid)
  | [], _ => findWithLsofLoop_parsed row post name pidField more pid hf hp
  | r :: pre, h => by
    rw [List.cons_append, findWithLsofLoop_unparseable r _ (h r (List.mem_cons_self _ _))]
    exact findWithLsofLoop_first_parsed row post name pidField more pid hf hp pre
      (fun x hx => h x (List.mem_cons_of_mem _ hx))

/-- C3, as the code has it: the parsing step of `findWithLsof` returns an error
in both cases, with two messages.  A listing that is one line once trimmed
(only a header) gives "no lsof output"; a header followed by data rows that are
all unparseable gives "no process found in lsof output". -/
theorem findWithLsof_no_row :
    (∀ output : GoString, '\n' ∉ TrimSpace output →
      findWithLsof (.ok output) = .error "no lsof output".toList) ∧
    (∀ (output header row : GoString) (rows : List GoString),
      Split (TrimSpace output) '\n' = header :: row :: rows →
      (∀ r ∈ row :: rows, unparseable r = true) →
      findWithLsof (.ok output) = .error "no process found in lsof output".toList) := by
  refine ⟨fun output h => ?_, fun output header row rows hs hu => ?_⟩
  · simp [findWithLsof, Split_of_not_mem '\n' _ h]
  · have hlen : ¬ (header :: row :: rows).length ≤ 1 := by simp
    simp only [findWithLsof, hs, hlen, if_false]
    rw [findWithLsofLoop_header]
    exact findWithLsofLoop_all_unparseable _ hu

/-- C3, witness: a header alone, and a header with a blank row, a row of one
field and a row whose second field is not a number. -/
theorem findWithLsof_no_row_witness :
    findWithLsof (.ok "COMMAND PID USER\n".toList) = .error "no lsof output".toList ∧
    findWithLsof (.ok "COMMAND PID USER\n\nlsof:\nnode abc bob\n".toList) =
      .error "no process found in lsof output".toList :=
  ⟨findWithLsof_no_row.1 _ (by decide),
   findWithLsof_no_row.2 _ "COMMAND PID USER".toList [] ["lsof:".toList, "node abc bob".toList]
     (by decide) (by decide)⟩

/-- C3, counterexample: for a listing with only a header the error is
"no lsof output", which is not the "no process found" message. -/
theorem findWithLsof_header_only_counterexample :
    findWithLsof (.ok "COMMAND PID USER FD TYPE DEVICE SIZE/OFF NODE NAME\n".toList) =
      .error "no lsof output".toList ∧
    findWithLsof (.ok "COMMAND PID USER FD TYPE DEVICE SIZE/OFF NODE NAME\n".toList) ≠
      .error "no process found in lsof output".toList := by
  decide

/-- C4: the parsing step of `findWithLsof` returns the first field as process
name and the second field as pid of the first data line that has at least two
fields and an integer second field.  The header `header` is not read, the
unparseable lines `pre` before that line are skipped and the lines `post` after
it are not read.  In particular `COMMAND PID USER ...` followed by
`python 4242 alice ...` gives ("python", 4242). -/
theorem findWithLsof_first_parsed_row :
    (∀ (output header row : GoString) (pre post : List GoString)
        (name pidField : GoString) (more : List GoString) (pid : Int),
      Split (TrimSpace output) '\n' = header :: (pre ++ row :: post) →
      (∀ r ∈ pre, unparseable r = true) →
      Fields row = name :: pidField :: more →
      Atoi pidField = some pid →
      findWithLsof (.ok output) = .ok (name, pid)) ∧
    findWithLsof (.ok "COMMAND PID USER ...\npython 4242 alice ...\n".toList) =
      .ok ("python".toList, 4242) := by
  refine ⟨fun output header row pre post name pidField more pid hs hu hf hp => ?_, by decide⟩
  have hlen : ¬ (header :: (pre ++ row :: post)).length ≤ 1 := by simp
  simp only [findWithLsof, hs, hlen, if_false]
  rw [findWithLsofLoop_header]
  exact findWithLsofLoop_first_parsed row post name pidField more pid hf hp pre hu

/-- C4, witness: the header looks like a data row, two unparseable rows come
first, and another parseable row follows. -/
theorem findWithLsof_first_parsed_row_witness :
    findWithLsof (.ok "launchd 1 root\n\nlsof: warning\nPython 28024 user 8u IPv4\nnode 7 bob 9u IPv6\n".toList) =
      .ok ("Python".toList, 28024) :=
  findWithLsof_first_parsed_row.1 _ "launchd 1 root".toList "Python 28024 user 8u IPv4".toList
    [[], "lsof: warning".toList] ["node 7 bob 9u IPv6".toList]
    "Python".toList "28024".toList ["user".toList, "8u".toList, "IPv4".toList] 28024
    (by decide) (by decide) (by decide) (by decide)

/-! ## Decimal texts (`strconv.Atoi`, `%d`) and `getMemoryUsage` -/

theorem digitVal_digitChar (d : Nat) (h : d < 10) : digitVal (digitChar d) = some d := by
  interval_cases d <;> rfl

theorem digitChar_ne_sign (d : Nat) (h : d < 10) :
    digitChar d ≠ '-' ∧ digitChar d ≠ '+' := by
  interval_cases d <;> decide

theorem parseDigits_append_digit (d : Nat) (h : d < 10) :
    ∀ (xs : GoString) (acc v : Nat), parseDigits xs acc = some v →
      parseDigits (xs ++ [digitChar d]) acc = some (v * 10 + d)
  | [], acc, v, hv => by
    simp only [parseDigits, Option.some.injEq] at hv
    simp [parseDigits, digitVal_digitChar d h, hv]
  | c :: cs, acc, v, hv => by
    simp only [parseDigits, List.cons_append] at hv ⊢
    cases hc : digitVal c with
    | none => simp [hc] at hv
    | some e =>
      simp only [hc] at hv ⊢
      exact parseDigits_append_digit d h cs _ v hv

/-- Reading back the digits written for `n` gives `n`. -/
theorem parseDigits_formatNatAux :
    ∀ (fuel n : Nat), n < fuel → parseDigits (formatNatAux fuel n) 0 = some n
  | 0, n, h => absurd h (Nat.not_lt_zero n)
  | fuel + 1, n, h => by
    unfold formatNatAux
    split_ifs with h10
    · simp [parseDigits, digitVal_digitChar n h10]
    · have hlt : n / 10 < fuel := by omega
      have := parseDigits_append_digit (n % 10) (Nat.mod_lt _ (by decide)) _ 0 (n / 10)
        (parseDigits_formatNatAux fuel (n / 10) hlt)
      rw [this]
      congr 1
      omega

/-- The text written for `n` starts with a digit. -/
theorem formatNatAux_head :
    ∀ (fuel n : Nat), n < fuel →
      ∃ d rest, d < 10 ∧ formatNatAux fuel n = digitChar d :: rest
  | 0, n, h => absurd h (Nat.not_lt_zero n)
  | fuel + 1, n, h => by
    unfold formatNatAux
    split_ifs with h10
    · exact ⟨n, [], h10, rfl⟩
    · have hlt : n / 10 < fuel := by omega
      obtain ⟨d, rest, hd, he⟩ := formatNatAux_head fuel (n / 10) hlt
      exact ⟨d, rest ++ [digitChar (n % 10)], hd, by rw [he]; rfl⟩

/-- `strconv.Atoi` reads the decimal text of every non-negative `int`. -/
theorem Atoi_FormatNat (k : Nat) (hk : k < 2 ^ 63) : Atoi (FormatNat k) = some (k : Int) := by
  obtain ⟨d, rest, hd, he⟩ := formatNatAux_head (k + 1) k (Nat.lt_succ_self k)
  have hp := parseDigits_formatNatAux (k + 1) k (Nat.lt_succ_self k)
  unfold FormatNat
  rw [he] at hp ⊢
  obtain ⟨h1, h2⟩ := digitChar_ne_sign d hd
  unfold Atoi
  simp only [h1, h2, if_false, hp, hk, if_true]

/-- The range of `int` in `strconv.Atoi`: the text of `2^63 - 1` is read, the
text of `2^63` is a range error. -/
theorem Atoi_range :
    Atoi (FormatNat (2 ^ 63 - 1)) = some (2 ^ 63 - 1) ∧ Atoi (FormatNat (2 ^ 63)) = none := by
  decide

theorem FormatInt_natCast (n : Nat) : FormatInt (n : Int) = FormatNat n := by
  unfold FormatInt
  have : ¬ ((n : Int) < 0) := by omega
  simp [this]

theorem formatNatAux_digits :
    ∀ (fuel n : Nat), ∀ c ∈ formatNatAux fuel n, ∃ d, d < 10 ∧ c = digitChar d
  | 0, _, c, h => by simp [formatNatAux] at h
  | fuel + 1, n, c, h => by
    unfold formatNatAux at h
    split_ifs at h with h10
    · rw [List.mem_singleton] at h
      exact ⟨n, h10, h⟩
    · rcases List.mem_append.1 h with h | h
      · exact formatNatAux_digits fuel (n / 10) c h
      · rw [List.mem_singleton] at h
        exact ⟨n % 10, Nat.mod_lt _ (by decide), h⟩

theorem dropWhile_of_all_false (p : Char → Bool) (s : GoString)
    (h : ∀ c ∈ s, p c = false) : s.dropWhile p = s := by
  cases s with
  | nil => rfl
  | cons c cs => simp [List.dropWhile, h c (List.mem_cons_self _ _)]

/-- `strings.TrimSpace` leaves a text without white space as it is. -/
theorem TrimSpace_of_no_space (s : GoString) (h : ∀ c ∈ s, isSpace c = false) :
    TrimSpace s = s := by
  unfold TrimSpace
  rw [dropWhile_of_all_false isSpace s h,
    dropWhile_of_all_false isSpace s.reverse (fun c hc => h c (List.mem_reverse.1 hc)),
    List.reverse_reverse]

theorem TrimSpace_FormatNat (k : Nat) : TrimSpace (FormatNat k) = FormatNat k := by
  apply TrimSpace_of_no_space
  intro c hc
  obtain ⟨d, hd, rfl⟩ := formatNatAux_digits _ _ c hc
  interval_cases d <;> rfl

/-- C5: memory normalization in `getMemoryUsage`; the raw value `rss` is the
trimmed output of the `ps` command.  When `rss` is the decimal text of a
non-negative `int` `k` of kilobytes, the result is the decimal text of
`k / 1024` (whole megabytes) followed by "MB", also when `ps` printed nothing
around the number; when `rss` does not parse as an `int`, the result is `rss`
followed by "KB".  `204800` gives `200MB` and `xyz` gives `xyzKB`. -/
theorem getMemoryUsage_normalizes :
    (∀ (output : GoString) (k : Nat), k < 2 ^ 63 → TrimSpace output = FormatNat k →
      getMemoryUsage (.ok output) = FormatNat (k / 1024) ++ "MB".toList) ∧
    (∀ k : Nat, k < 2 ^ 63 →
      getMemoryUsage (.ok (FormatNat k)) = FormatNat (k / 1024) ++ "MB".toList) ∧
    (∀ output : GoString, Atoi (TrimSpace output) = none →
      getMemoryUsage (.ok output) = TrimSpace output ++ "KB".toList) ∧
    getMemoryUsage (.ok "204800".toList) = "200MB".toList ∧
    getMemoryUsage (.ok "xyz".toList) = "xyzKB".toList := by
  have main : ∀ (output : GoString) (k : Nat), k < 2 ^ 63 → TrimSpace output = FormatNat k →
      getMemoryUsage (.ok output) = FormatNat (k / 1024) ++ "MB".toList := by
    intro output k hk ht
    have hdiv : (k : Int).tdiv 1024 = ((k / 1024 : Nat) : Int) := by
      rw [Int.tdiv_eq_ediv (by omega) (by omega)]
      norm_cast
    simp only [getMemoryUsage, ht, Atoi_FormatNat k hk, hdiv, FormatInt_natCast]
  refine ⟨main, fun k hk => main _ k hk (TrimSpace_FormatNat k), fun output h => ?_,
    by decide, by decide⟩
  simp only [getMemoryUsage, h]

/-- C5, witness: the output of `ps` as it comes, with its line feed. -/
theorem getMemoryUsage_normalizes_witness :
    getMemoryUsage (.ok " 51234\n".toList) = "50MB".toList ∧
    getMemoryUsage (.ok "12.5\n".toList) = "12.5KB".toList :=
  ⟨getMemoryUsage_normalizes.1 " 51234\n".toList 51234 (by decide) (by decide),
   getMemoryUsage_normalizes.2.2.1 "12.5\n".toList (by decide)⟩

/-! ## Ports of a process (`ExtractPortsFromProcess`) -/

theorem portFound_iff (port : Int) : ∀ ports : List Int, portFound ports port = true ↔ port ∈ ports
  | [] => by simp [portFound]
  | p :: ps => by
    unfold portFound
    by_cases h : p = port
    · simp [h]
    · have h2 : ¬ port = p := fun e => h e.symm
      simp [h, h2, portFound_iff port ps]

/-- Success of the digit loop means every code point read was a digit. -/
theorem parseDigits_all_digits :
    ∀ (xs : GoString) (acc v : Nat), parseDigits xs acc = some v →
      ∀ c ∈ xs, (digitVal c).isSome = true
  | [], _, _, _ => by simp
  | x :: xs, acc, v, h => by
    simp only [parseDigits] at h
    cases hx : digitVal x with
    | none => simp [hx] at h
    | some d =>
      simp only [hx] at h
      intro c hc
      rcases List.mem_cons.1 hc with rfl | hc
      · simp [hx]
      · exact parseDigits_all_digits xs _ v h c hc

/-- A text accepted by `strconv.Atoi` holds no blank. -/
theorem Atoi_no_blank (t : GoString) (n : Int) (h : Atoi t = some n) : ' ' ∉ t := by
  have hd : (digitVal ' ').isSome = false := by decide
  intro hmem
  cases t with
  | nil => simp at hmem
  | cons c rest =>
    simp only [Atoi] at h
    split_ifs at h with h1 h2
    · cases rest with
      | nil => simp at h
      | cons r rs =>
        simp only at h
        cases hp : parseDigits (r :: rs) 0 with
        | none => simp [hp] at h
        | some v =>
          rcases List.mem_cons.1 hmem with e | e
          · rw [← e] at h1; exact absurd h1 (by decide)
          · have := parseDigits_all_digits _ _ _ hp _ e
            rw [hd] at this; exact absurd this (by decide)
    · cases rest with
      | nil => simp at h
      | cons r rs =>
        simp only at h
        cases hp : parseDigits (r :: rs) 0 with
        | none => simp [hp] at h
        | some v =>
          rcases List.mem_cons.1 hmem with e | e
          · rw [← e] at h2; exact absurd h2 (by decide)
          · have := parseDigits_all_digits _ _ _ hp _ e
            rw [hd] at this; exact absurd this (by decide)
    · cases hp : parseDigits (c :: rest) 0 with
      | none => simp [hp] at h
      | some v =>
        have := parseDigits_all_digits _ _ _ hp _ hmem
        rw [hd] at this; exact absurd this (by decide)

theorem Index_of_not_mem (c : Char) : ∀ s : GoString, c ∉ s → Index s c = none
  | [], _ => rfl
  | x :: xs, h => by
    have hx : x ≠ c := fun e => h (by simp [e])
    have ht : c ∉ xs := fun e => h (List.mem_cons_of_mem _ e)
    simp [Index, hx, Index_of_not_mem c xs ht]

theorem LastIndex_of_not_mem (c : Char) : ∀ s : GoString, c ∉ s → LastIndex s c = none
  | [], _ => rfl
  | x :: xs, h => by
    have hx : x ≠ c := fun e => h (by simp [e])
    have ht : c ∉ xs := fun e => h (List.mem_cons_of_mem _ e)
    simp [LastIndex, hx, LastIndex_of_not_mem c xs ht]

/-- The last occurrence of `c` in `a ++ c :: t`, when `t` holds none. -/
theorem LastIndex_append (c : Char) (t : GoString) (ht : c ∉ t) :
    ∀ a : GoString, LastIndex (a ++ c :: t) c = some a.length
  | [] => by simp [LastIndex, LastIndex_of_not_mem c t ht]
  | x :: a => by
    simp [LastIndex, LastIndex_append c t ht a]

/-- The loop body on the record step: a row adds its port unless present. -/
theorem extractLine_eq (line : GoString) (ports : List Int) :
    extractLine line ports =
      match linePort line with
      | some port => addPort ports port
      | none => ports := by
  unfold linePort extractLine addPort
  simp only [portFound_iff]
  split_ifs with h9
  · split
    · split_ifs with hstar
      · rfl
      · split
        · simp [portFound]
        · rfl
    · rfl
  · rfl

theorem extractLoop_succ (lines : List GoString) :
    ∀ (i : Nat) (ports : List Int),
      extractLoop (i + 1) lines ports = extractLoop 1 lines ports := by
  induction lines with
  | nil => intro i ports; rfl
  | cons line rest ih =>
    intro i ports
    unfold extractLoop
    simp only [Nat.succ_ne_zero, if_false, ih (i + 1), ih 1]

theorem extractLoop_header (header : GoString) (rows : List GoString) (ports : List Int) :
    extractLoop 0 (header :: rows) ports = extractLoop 1 rows ports := by
  rw [extractLoop]
  simp

theorem extractLine_nil (ports : List Int) : extractLine [] ports = ports := rfl

/-- After the header the loop folds the record step over the ports carried by
the rows. -/
theorem extractLoop_rows :
    ∀ (rows : List GoString) (ports : List Int),
      extractLoop 1 rows ports = (rows.filterMap linePort).foldl addPort ports
  | [], _ => rfl
  | line :: rest, ports => by
    rw [extractLoop]
    simp only [Nat.succ_ne_zero, if_false, extractLoop_succ rest 1]
    have hstep : (if line = [] then extractLoop 1 rest ports
        else extractLoop 1 rest (extractLine line ports)) =
        extractLoop 1 rest (extractLine line ports) := by
      split_ifs with he
      · rw [he, extractLine_nil]
      · rfl
    rw [hstep, extractLoop_rows rest, extractLine_eq]
    cases hp : linePort line with
    | none => simp [List.filterMap_cons, hp]
    | some port => simp [List.filterMap_cons, hp]

theorem mem_keepFirst (p : Int) : ∀ xs : List Int, p ∈ keepFirst xs ↔ p ∈ xs
  | [] => by simp [keepFirst]
  | x :: xs => by
    simp only [keepFirst, List.mem_cons, List.mem_filter, mem_keepFirst p xs,
      decide_eq_true_eq]
    constructor
    · rintro (h | ⟨h, _⟩)
      · exact Or.inl h
      · exact Or.inr h
    · rintro (h | h)
      · exact Or.inl h
      · by_cases e : p = x
        · exact Or.inl e
        · exact Or.inr ⟨h, e⟩

theorem nodup_keepFirst : ∀ xs : List Int, (keepFirst xs).Nodup
  | [] => by simp [keepFirst]
  | x :: xs => by
    simp only [keepFirst, List.nodup_cons, List.mem_filter, decide_eq_true_eq]
    exact ⟨fun h => h.2 rfl, (nodup_keepFirst xs).filter _⟩

/-- Folding the record step appends the first occurrences of the new ports. -/
theorem foldl_addPort :
    ∀ (seq ports : List Int),
      seq.foldl addPort ports =
        ports ++ (keepFirst seq).filter (fun y => decide (y ∉ ports))
  | [], ports => by simp [keepFirst]
  | x :: xs, ports => by
    rw [List.foldl_cons, foldl_addPort xs]
    unfold addPort
    split_ifs with hx
    · simp only [keepFirst, List.filter_cons, hx, not_true_eq_false, decide_False,
        Bool.false_eq_true, if_false, List.filter_filter]
      congr 1
      apply List.filter_congr
      intro y _
      by_cases hy : y ∈ ports
      · simp [hy]
      · have : y ≠ x := fun e => hy (e ▸ hx)
        simp [hy, this]
    · simp only [keepFirst, List.filter_cons, hx, not_false_eq_true, decide_True, if_true,
        List.filter_filter, List.append_assoc, List.singleton_append]
      congr 2
      apply List.filter_congr
      intro y _
      by_cases hy : y ∈ ports
      · simp [hy]
      · by_cases e : y = x
        · simp [e]
        · simp [hy, e]

/-- The port list of the whole loop: the ports of the data rows, each at its
first occurrence. -/
theorem extractLoop_eq_keepFirst (header : GoString) (rows : List GoString) :
    extractLoop 0 (header :: rows) [] = keepFirst (rows.filterMap linePort) := by
  rw [extractLoop_header, extractLoop_rows, foldl_addPort]
  simp

theorem getD_append_cons (x d : GoString) (more : List GoString) :
    ∀ fs : List GoString, (fs ++ x :: more).getD fs.length d = x
  | [] => rfl
  | f :: fs => by
    simpa [List.getD_cons_succ] using getD_append_cons x d more fs

/-- A row whose ninth field is `addr:t`, with `t` the text of an `int`, carries
the port `t`. -/
theorem linePort_of_field (line : GoString) (fs more : List GoString) (addr t : GoString)
    (n : Int) (hf : Fields line = fs ++ (addr ++ ':' :: t) :: more) (h8 : fs.length = 8)
    (hc : ':' ∉ t) (hn : Atoi t = some n) : linePort line = some n := by
  have hlen : 9 ≤ (fs ++ (addr ++ ':' :: t) :: more).length := by
    rw [List.length_append, List.length_cons, h8]
    omega
  have hget : (fs ++ (addr ++ ':' :: t) :: more).getD 8 [] = addr ++ ':' :: t := by
    rw [← h8]
    exact getD_append_cons _ _ _ fs
  have hdrop : (addr ++ ':' :: t).drop (addr.length + 1) = t := by
    rw [show addr ++ ':' :: t = (addr ++ [':']) ++ t by simp]
    exact List.drop_left' (by simp)
  have hstar : t ≠ "*".toList := by
    rintro rfl
    have hnone : Atoi "*".toList = none := by decide
    rw [hnone] at hn
    cases hn
  unfold linePort extractLine
  simp only [hf, hlen, if_true, hget, LastIndex_append ':' t hc addr, hdrop,
    Index_of_not_mem ' ' t (Atoi_no_blank t n hn), hstar, if_false, hn, portFound]
  rfl

/-- A row whose ninth field is the wildcard `*:*` carries no port. -/
theorem linePort_wildcard (line : GoString) (fs more : List GoString)
    (hf : Fields line = fs ++ "*:*".toList :: more) (h8 : fs.length = 8) :
    linePort line = none := by
  have hlen : 9 ≤ (fs ++ "*:*".toList :: more).length := by
    rw [List.length_append, List.length_cons, h8]
    omega
  have hget : (fs ++ "*:*".toList :: more).getD 8 [] = "*:*".toList := by
    rw [← h8]
    exact getD_append_cons _ _ _ fs
  unfold linePort extractLine
  simp only [hf, hlen, if_true, hget]
  rfl

/-- C7: the parsing loop of `ExtractPortsFromProcess`.  The first line is not
read: two listings that differ only in it give the same result.  A data line
whose ninth field is `addr:t`, with `t` the decimal text of the `int` `n`
(whatever fields follow it, such as `(LISTEN)`), contributes the port `n`.  A
data line whose ninth field is `*:*` can be removed without changing the
result, which is never an error.  The row `... TCP *:3000 (LISTEN)` gives
3000. -/
theorem ExtractPortsFromProcess_rows :
    (∀ (output output' header header' : GoString) (rows : List GoString),
      Split output '\n' = header :: rows → Split output' '\n' = header' :: rows →
      ExtractPortsFromProcess (.ok output) = ExtractPortsFromProcess (.ok output')) ∧
    (∀ (output header line : GoString) (pre post fs more : List GoString)
        (addr t : GoString) (n : Int),
      Split output '\n' = header :: (pre ++ line :: post) →
      Fields line = fs ++ (addr ++ ':' :: t) :: more → fs.length = 8 →
      ':' ∉ t → Atoi t = some n →
      ∃ ports, ExtractPortsFromProcess (.ok output) = .ok ports ∧ n ∈ ports) ∧
    (∀ (output output' header line : GoString) (pre post fs more : List GoString),
      Split output '\n' = header :: (pre ++ line :: post) →
      Split output' '\n' = header :: (pre ++ post) →
      Fields line = fs ++ "*:*".toList :: more → fs.length = 8 →
      ∃ ports, ExtractPortsFromProcess (.ok output) = .ok ports ∧
        ExtractPortsFromProcess (.ok output') = .ok ports) ∧
    ExtractPortsFromProcess (.ok
      "COMMAND PID USER FD TYPE DEVICE SIZE/OFF NODE NAME\nnode 1 u 3u IPv4 0x1 0t0 TCP *:3000 (LISTEN)\nnode 1 u 4u IPv4 0x2 0t0 UDP *:*\n".toList)
      = .ok [3000] := by
  refine ⟨?_, ?_, ?_, by decide⟩
  · intro output output' header header' rows h h'
    simp only [ExtractPortsFromProcess, h, h', extractLoop_eq_keepFirst]
  · intro output header line pre post fs more addr t n hs hf h8 hc hn
    refine ⟨_, rfl, ?_⟩
    rw [hs, extractLoop_eq_keepFirst, mem_keepFirst, List.mem_filterMap]
    exact ⟨line, by simp, linePort_of_field line fs more addr t n hf h8 hc hn⟩
  · intro output output' header line pre post fs more hs hs' hf h8
    refine ⟨_, rfl, ?_⟩
    simp only [ExtractPortsFromProcess, hs, hs', extractLoop_eq_keepFirst,
      List.filterMap_append, List.filterMap_cons, linePort_wildcard line fs more hf h8]

/-- C7, witness: an IPv6 address with colons of its own, and a wildcard row. -/
theorem ExtractPortsFromProcess_rows_witness :
    (∃ ports, ExtractPortsFromProcess (.ok
        "HEADER\nnode 1 u 3u IPv6 0x1 0t0 TCP [::1]:8080 (LISTEN)".toList) = .ok ports ∧
      (8080 : Int) ∈ ports) ∧
    (∃ ports, ExtractPortsFromProcess (.ok
        "HEADER\nnode 1 u 4u IPv4 0x2 0t0 UDP *:*\nnode 1 u 3u IPv4 0x1 0t0 TCP *:80".toList)
        = .ok ports ∧
      ExtractPortsFromProcess (.ok "HEADER\nnode 1 u 3u IPv4 0x1 0t0 TCP *:80".toList)
        = .ok ports) :=
  ⟨ExtractPortsFromProcess_rows.2.1 _ "HEADER".toList
      "node 1 u 3u IPv6 0x1 0t0 TCP [::1]:8080 (LISTEN)".toList [] []
      ["node".toList, "1".toList, "u".toList, "3u".toList, "IPv6".toList, "0x1".toList,
        "0t0".toList, "TCP".toList] ["(LISTEN)".toList] "[::1]".toList "8080".toList 8080
      (by decide) (by decide) (by decide) (by decide) (by decide),
   ExtractPortsFromProcess_rows.2.2.1 _ _ "HEADER".toList
      "node 1 u 4u IPv4 0x2 0t0 UDP *:*".toList [] ["node 1 u 3u IPv4 0x1 0t0 TCP *:80".toList]
      ["node".toList, "1".toList, "u".toList, "4u".toList, "IPv4".toList, "0x2".toList,
        "0t0".toList, "UDP".toList] []
      (by decide) (by decide) (by decide) (by decide)⟩

/-- C8: the port list returned by the parsing loop of `ExtractPortsFromProcess`
has no duplicates; it is the sequence of the ports carried by the data rows
with every port kept once, at its first occurrence. -/
theorem ExtractPortsFromProcess_nodup (output : GoString) :
    ∃ ports, ExtractPortsFromProcess (.ok output) = .ok ports ∧ ports.Nodup ∧
      ports = keepFirst ((Split output '\n').tail.filterMap linePort) := by
  obtain ⟨header, rows, hs⟩ := Split_cons '\n' output
  refine ⟨_, rfl, ?_, ?_⟩
  · rw [hs, extractLoop_eq_keepFirst]
    exact nodup_keepFirst _
  · rw [hs, extractLoop_eq_keepFirst]
    rfl

/-! ## `filepath.Clean` and `filepath.Dir` shorten paths -/

theorem weight_append : ∀ xs ys : List GoString, weight (xs ++ ys) = weight xs + weight ys
  | [], ys => by simp [weight]
  | x :: xs, ys => by simp [weight, weight_append xs ys]; omega

theorem weight_reverse : ∀ xs : List GoString, weight xs.reverse = weight xs
  | [] => rfl
  | x :: xs => by
    simp [weight_append, weight, weight_reverse xs]; omega

theorem weight_Split (sep : Char) : ∀ s : GoString, weight (Split s sep) = s.length + 1
  | [] => rfl
  | c :: cs => by
    obtain ⟨f, r, h⟩ := Split_cons sep cs
    have ih := weight_Split sep cs
    rw [h] at ih
    by_cases hc : c = sep
    · simp only [Split, hc, if_true, weight, h, List.length_nil, List.length_cons] at ih ⊢
      omega
    · simp only [Split, hc, if_false, weight, h, List.length_cons] at ih ⊢
      omega

theorem Split_append_sep (sep : Char) :
    ∀ s : GoString, Split (s ++ [sep]) sep = Split s sep ++ [[]]
  | [] => by simp [Split]
  | c :: cs => by
    obtain ⟨f, r, h⟩ := Split_cons sep cs
    have ih := Split_append_sep sep cs
    by_cases hc : c = sep
    · simp [Split, hc, ih]
    · simp [Split, hc, ih, h]

theorem length_joinSlash : ∀ xs : List GoString, xs ≠ [] →
    (joinSlash xs).length + 1 = weight xs
  | [], h => absurd rfl h
  | [x], _ => by simp [joinSlash, weight]
  | x :: y :: rest, _ => by
    have ih := length_joinSlash (y :: rest) (by simp)
    simp only [joinSlash, weight, List.length_append, List.length_cons] at ih ⊢
    omega

theorem weight_cleanStep (rooted : Bool) (stack : List GoString) (comp : GoString) :
    weight (cleanStep rooted stack comp) ≤ weight stack + (comp.length + 1) := by
  unfold cleanStep
  by_cases h1 : comp = [] ∨ comp = ".".toList
  · rw [if_pos h1]
    omega
  · rw [if_neg h1]
    by_cases h2 : comp = "..".toList
    · rw [if_pos h2]
      cases stack with
      | nil =>
        cases rooted
        · simp only [weight, Bool.false_eq_true, if_false]
          omega
        · simp only [weight, if_true]
          omega
      | cons top below =>
        show weight (if top = "..".toList then comp :: top :: below else below) ≤ _
        by_cases h3 : top = "..".toList
        · rw [if_pos h3]
          simp only [weight]
          omega
        · rw [if_neg h3]
          simp only [weight]
          omega
    · rw [if_neg h2]
      simp only [weight]
      omega

theorem weight_foldl_cleanStep (rooted : Bool) :
    ∀ (comps stack : List GoString),
      weight (comps.foldl (cleanStep rooted) stack) ≤ weight stack + weight comps
  | [], stack => by simp [weight]
  | c :: cs, stack => by
    have h1 := weight_foldl_cleanStep rooted cs (cleanStep rooted stack c)
    have h2 := weight_cleanStep rooted stack c
    simp only [List.foldl_cons, weight]
    omega

/-- Cleaning a path that ends in a slash gives the root or a shorter path. -/
theorem Clean_slash (q : GoString) :
    Clean (q ++ ['/']) = "/".toList ∨ (Clean (q ++ ['/'])).length ≤ q.length := by
  have hfold : ∀ rooted, (Split (q ++ ['/']) '/').foldl (cleanStep rooted) [] =
      (Split q '/').foldl (cleanStep rooted) [] := by
    intro rooted
    rw [Split_append_sep, List.foldl_append]
    rfl
  cases q with
  | nil => left; rfl
  | cons c q' =>
    by_cases hc : c = '/'
    · -- rooted
      subst hc
      have hroot : HasPrefix ('/' :: q' ++ ['/']) "/".toList = true := by
        simp [HasPrefix]
      have hsplit : (Split ('/' :: q') '/').foldl (cleanStep true) [] =
          (Split q' '/').foldl (cleanStep true) [] := by
        simp [Split, cleanStep]
      have hw := weight_foldl_cleanStep true (Split q' '/') []
      rw [weight_Split] at hw
      simp only [Clean, hroot, hfold, hsplit, if_true]
      generalize (Split q' '/').foldl (cleanStep true) [] = stack at hw ⊢
      by_cases hs : stack = []
      · left; subst hs; rfl
      · right
        have hr : stack.reverse ≠ [] := by simpa using hs
        have hl := length_joinSlash stack.reverse hr
        rw [weight_reverse] at hl
        simp only [weight] at hw
        simp
        omega
    · -- relative
      have hroot : HasPrefix (c :: q' ++ ['/']) "/".toList = false := by
        simp [HasPrefix, hc]
      have hw := weight_foldl_cleanStep false (Split (c :: q') '/') []
      rw [weight_Split] at hw
      simp only [Clean, hroot, hfold]
      generalize (Split (c :: q') '/').foldl (cleanStep false) [] = stack at hw ⊢
      right
      by_cases hs : stack = []
      · subst hs; simp [joinSlash]
      · have hr : stack.reverse ≠ [] := by simpa using hs
        have hl := length_joinSlash stack.reverse hr
        rw [weight_reverse] at hl
        simp only [weight, List.length_cons] at hw
        have hne : joinSlash stack.reverse ≠ [] ∨ joinSlash stack.reverse = [] := by tauto
        rcases hne with hne | hne
        · simp [hne]; omega
        · simp [hne]

theorem LastIndex_some (c : Char) :
    ∀ (s : GoString) (i : Nat), LastIndex s c = some i →
      ∃ q r, s = q ++ c :: r ∧ q.length = i
  | [], i, h => by simp [LastIndex] at h
  | x :: xs, i, h => by
    simp only [LastIndex] at h
    cases hl : LastIndex xs c with
    | some j =>
      simp only [hl, Option.some.injEq] at h
      obtain ⟨q, r, hq, hj⟩ := LastIndex_some c xs j hl
      exact ⟨x :: q, r, by simp [hq], by simp [hj, h]⟩
    | none =>
      simp only [hl] at h
      split_ifs at h with hx
      simp only [Option.some.injEq] at h
      exact ⟨[], xs, by simp [hx], by simp [h]⟩

/-- Each step up of the walk of `FindProjectRoot` lowers the measure: from a
path that is not the string `/`, `filepath.Dir` gives the same path or one of
smaller measure. -/
theorem walkMeasure_Dir (dir : GoString) (hroot : dir ≠ "/".toList) (hfix : Dir dir ≠ dir) :
    walkMeasure (Dir dir) < walkMeasure dir := by
  unfold Dir at hfix ⊢
  cases hl : LastIndex dir '/' with
  | none =>
    simp only [hl] at hfix ⊢
    have hdot : Clean [] = ".".toList := rfl
    rw [hdot] at hfix ⊢
    have hne : dir ≠ ".".toList := fun e => hfix e.symm
    have hdir : walkMeasure dir = dir.length + 2 := by
      unfold walkMeasure
      rw [if_neg hroot, if_neg hne]
    have hd : walkMeasure ".".toList = 1 := rfl
    omega
  | some i =>
    simp only [hl] at hfix ⊢
    obtain ⟨q, r, hq, hi⟩ := LastIndex_some '/' dir i hl
    have htake : dir.take (i + 1) = q ++ ['/'] := by
      rw [hq, ← hi, show q ++ '/' :: r = (q ++ ['/']) ++ r by simp]
      exact List.take_left' (by simp)
    have hlen : q.length + 1 ≤ dir.length := by
      rw [hq]; simp
    have hdot : dir ≠ ".".toList := by
      rw [hq]
      intro e
      cases q with
      | nil => simp at e
      | cons a q' =>
        cases q' with
        | nil => simp at e
        | cons b q2 => simp at e
    rw [htake]
    have hdir : walkMeasure dir = dir.length + 2 := by
      unfold walkMeasure
      rw [if_neg hroot, if_neg hdot]
    rw [hdir]
    rcases Clean_slash q with h | h
    · rw [h]
      have hd : walkMeasure "/".toList = 0 := rfl
      omega
    · unfold walkMeasure
      split_ifs <;> omega

theorem checkMarkers_eq (fs : GoString → Bool) (dir : GoString) :
    ∀ (markers configFiles : List GoString),
      checkMarkers fs dir markers configFiles =
        configFiles ++ (markers.map (Join dir)).filter fs
  | [], configFiles => by simp [checkMarkers]
  | m :: ms, configFiles => by
    simp only [checkMarkers, List.map_cons, List.filter_cons]
    split_ifs with h
    · rw [checkMarkers_eq fs dir ms]
      simp
    · rw [checkMarkers_eq fs dir ms]

theorem checkMarkers_markersIn (fs : GoString → Bool) (dir : GoString) :
    checkMarkers fs dir projectMarkers [] = markersIn fs dir := by
  rw [checkMarkers_eq]
  rfl

/-- One iteration of the walk of `FindProjectRoot`, started without config
files. -/
theorem findProjectRootLoop_step (fs : GoString → Bool) (workingDir dir : GoString)
    (fuel : Nat) :
    findProjectRootLoop fs workingDir (fuel + 1) dir [] =
      if dir = "/".toList then some (workingDir, [])
      else if markersIn fs dir ≠ [] then some (dir, markersIn fs dir)
      else if Dir dir = dir then some (workingDir, [])
      else findProjectRootLoop fs workingDir fuel (Dir dir) [] := by
  rw [findProjectRootLoop]
  simp only [checkMarkers_markersIn]
  by_cases h1 : dir = "/".toList
  · simp only [h1, if_true]
  · simp only [h1, if_false]
    by_cases h2 : markersIn fs dir = []
    · simp [h2]
    · have : (markersIn fs dir).length > 0 := List.length_pos.2 h2
      simp [h2, this]

theorem ancestor_succ (dir : GoString) (k : Nat) :
    ancestor dir (k + 1) = ancestor (Dir dir) k := by
  unfold ancestor
  rw [Function.iterate_succ_apply]

theorem ancestor_fixed (dir : GoString) (h : Dir dir = dir) : ∀ k, ancestor dir k = dir
  | 0 => rfl
  | k + 1 => by rw [ancestor_succ, h, ancestor_fixed dir h k]

/-- The walk ends within the bound given by the measure. -/
theorem findProjectRootLoop_total (fs : GoString → Bool) (workingDir : GoString) :
    ∀ (fuel : Nat) (dir : GoString), walkMeasure dir < fuel →
      ∃ r, findProjectRootLoop fs workingDir fuel dir [] = some r
  | 0, dir, h => absurd h (Nat.not_lt_zero _)
  | fuel + 1, dir, h => by
    rw [findProjectRootLoop_step]
    split_ifs with h1 h2 h3
    · exact ⟨_, rfl⟩
    · exact ⟨_, rfl⟩
    · exact ⟨_, rfl⟩
    · have := walkMeasure_Dir dir h1 h3
      exact findProjectRootLoop_total fs workingDir fuel (Dir dir) (by omega)

/-- The walk that meets no marker returns the starting directory. -/
theorem findProjectRootLoop_none (fs : GoString → Bool) (workingDir : GoString) :
    ∀ (fuel : Nat) (dir : GoString), walkMeasure dir < fuel →
      (∀ k, ancestor dir k ≠ "/".toList → markersIn fs (ancestor dir k) = []) →
      findProjectRootLoop fs workingDir fuel dir [] = some (workingDir, [])
  | 0, dir, h, _ => absurd h (Nat.not_lt_zero _)
  | fuel + 1, dir, h, hm => by
    rw [findProjectRootLoop_step]
    split_ifs with h1 h2 h3
    · rfl
    · exact absurd (hm 0 h1) h2
    · rfl
    · have := walkMeasure_Dir dir h1 h3
      refine findProjectRootLoop_none fs workingDir fuel (Dir dir) (by omega) ?_
      intro k hk
      rw [← ancestor_succ] at hk ⊢
      exact hm (k + 1) hk

/-- The walk returns the first directory of the chain that holds a marker, when
no path up to it is the string `/`. -/
theorem findProjectRootLoop_found (fs : GoString → Bool) (workingDir : GoString) :
    ∀ (k fuel : Nat) (dir : GoString), walkMeasure dir < fuel →
      (∀ j, j ≤ k → ancestor dir j ≠ "/".toList) →
      (∀ j, j < k → markersIn fs (ancestor dir j) = []) →
      markersIn fs (ancestor dir k) ≠ [] →
      findProjectRootLoop fs workingDir fuel dir [] =
        some (ancestor dir k, markersIn fs (ancestor dir k))
  | _, 0, dir, h, _, _, _ => absurd h (Nat.not_lt_zero _)
  | 0, fuel + 1, dir, _, hr, _, hk => by
    rw [findProjectRootLoop_step]
    have h1 : dir ≠ "/".toList := hr 0 (Nat.le_refl 0)
    have h2 : markersIn fs dir ≠ [] := hk
    rw [if_neg h1, if_pos h2]
    rfl
  | k + 1, fuel + 1, dir, h, hr, hm, hk => by
    rw [findProjectRootLoop_step]
    have h1 : dir ≠ "/".toList := hr 0 (Nat.zero_le _)
    have h2 : markersIn fs dir = [] := hm 0 (Nat.succ_pos k)
    have h3 : Dir dir ≠ dir := by
      intro e
      rw [ancestor_fixed dir e] at hk
      exact hk h2
    rw [if_neg h1, if_neg (not_not.2 h2), if_neg h3]
    have := walkMeasure_Dir dir h1 h3
    rw [ancestor_succ]
    refine findProjectRootLoop_found fs workingDir k fuel (Dir dir) (by omega) ?_ ?_ ?_
    · intro j hj
      rw [← ancestor_succ]
      exact hr (j + 1) (by omega)
    · intro j hj
      rw [← ancestor_succ]
      exact hm (j + 1) (by omega)
    · rw [← ancestor_succ]
      exact hk

theorem walkMeasure_le (dir : GoString) : walkMeasure dir < dir.length + 3 := by
  unfold walkMeasure
  split_ifs <;> omega

/-- The bound on the iterations in `FindProjectRoot` is never reached: the
function returns for every filesystem and every starting directory. -/
theorem FindProjectRoot_total (fs : GoString → Bool) (workingDir : GoString) :
    ∃ r, FindProjectRoot fs workingDir = some r := by
  unfold FindProjectRoot
  split_ifs with h
  · exact ⟨_, rfl⟩
  · exact findProjectRootLoop_total fs workingDir _ workingDir (walkMeasure_le workingDir)

theorem markersIn_eq_nil (fs : GoString → Bool) (dir : GoString)
    (h : ∀ m ∈ projectMarkers, fs (Join dir m) = false) : markersIn fs dir = [] := by
  unfold markersIn
  rw [List.filter_eq_nil_iff]
  intro p hp
  obtain ⟨m, hm, rfl⟩ := List.mem_map.1 hp
  simp [h m hm]

theorem markersIn_ne_nil (fs : GoString → Bool) (dir : GoString)
    (h : ∃ m ∈ projectMarkers, fs (Join dir m) = true) : markersIn fs dir ≠ [] := by
  obtain ⟨m, hm, hfs⟩ := h
  have : Join dir m ∈ markersIn fs dir :=
    List.mem_filter.2 ⟨List.mem_map.2 ⟨m, hm, rfl⟩, hfs⟩
  exact List.ne_nil_of_mem this

theorem filter_map_Join (fs : GoString → Bool) (dir : GoString) (p : GoString → Bool) :
    ∀ ms : List GoString, (∀ m ∈ ms, fs (Join dir m) = p m) →
      (ms.map (Join dir)).filter fs = (ms.filter p).map (Join dir)
  | [], _ => rfl
  | m :: ms, h => by
    have hm := h m (List.mem_cons_self _ _)
    have ih := filter_map_Join fs dir p ms (fun x hx => h x (List.mem_cons_of_mem _ hx))
    simp only [List.map_cons, List.filter_cons, hm, ih]
    split_ifs <;> rfl

/-! ## Project root (`FindProjectRoot`) -/

/-- C2, as the code has it: when no marker exists in the starting directory or
in any directory above it, `FindProjectRoot` returns the starting directory
itself as project path, and no config files.  The project path is empty only
when the starting directory is. -/
theorem FindProjectRoot_no_marker (fs : GoString → Bool) (workingDir : GoString)
    (h : ∀ k, ∀ m ∈ projectMarkers, fs (Join (ancestor workingDir k) m) = false) :
    FindProjectRoot fs workingDir = some (workingDir, []) := by
  unfold FindProjectRoot
  split_ifs with he
  · rw [he]
  · exact findProjectRootLoop_none fs workingDir _ workingDir (walkMeasure_le workingDir)
      (fun k _ => markersIn_eq_nil fs _ (h k))

/-- C2, witness: a filesystem without any of the markers. -/
theorem FindProjectRoot_no_marker_witness :
    (∀ k, ∀ m ∈ projectMarkers,
      (fun _ : GoString => false) (Join (ancestor "/srv/app/cmd".toList k) m) = false) ∧
    FindProjectRoot (fun _ => false) "/srv/app/cmd".toList = some ("/srv/app/cmd".toList, []) :=
  ⟨fun _ _ _ => rfl, FindProjectRoot_no_marker (fun _ => false) _ (fun _ _ _ => rfl)⟩

/-- C2, counterexample: no path exists at all, and the project path returned
for `/srv/app` is `/srv/app`, not the empty string. -/
theorem FindProjectRoot_no_marker_counterexample :
    FindProjectRoot (fun _ => false) "/srv/app".toList = some ("/srv/app".toList, []) ∧
    FindProjectRoot (fun _ => false) "/srv/app".toList ≠ some ([], []) := by
  decide

/-- C6, as the code has it: the walk of `FindProjectRoot` goes through the
starting directory and the results of applying `filepath.Dir` to it again and
again, and its loop runs while the path is not the string `/`.  When the `k`-th
directory of this chain is the first one in which a marker exists, and neither
it nor a directory before it on the chain has the path `/`, the result is that
directory together with the paths `filepath.Join(root, marker)` of the markers
present in it, in the order of the marker table.  In particular a non-empty
starting directory whose path is not the string `/`, and which contains
`go.mod` and no other marker, gives itself and the one path
`filepath.Join(dir, "go.mod")`. -/
theorem FindProjectRoot_first_marker_dir :
    (∀ (fs : GoString → Bool) (workingDir : GoString) (k : Nat),
      workingDir ≠ [] →
      (∀ j, j ≤ k → ancestor workingDir j ≠ "/".toList) →
      (∀ j, j < k → ∀ m ∈ projectMarkers, fs (Join (ancestor workingDir j) m) = false) →
      (∃ m ∈ projectMarkers, fs (Join (ancestor workingDir k) m) = true) →
      FindProjectRoot fs workingDir =
        some (ancestor workingDir k, markersIn fs (ancestor workingDir k))) ∧
    (∀ (fs : GoString → Bool) (workingDir : GoString),
      workingDir ≠ [] → workingDir ≠ "/".toList →
      (∀ m ∈ projectMarkers, fs (Join workingDir m) = (m == "go.mod".toList)) →
      FindProjectRoot fs workingDir = some (workingDir, [Join workingDir "go.mod".toList])) := by
  have main : ∀ (fs : GoString → Bool) (workingDir : GoString) (k : Nat),
      workingDir ≠ [] →
      (∀ j, j ≤ k → ancestor workingDir j ≠ "/".toList) →
      (∀ j, j < k → ∀ m ∈ projectMarkers, fs (Join (ancestor workingDir j) m) = false) →
      (∃ m ∈ projectMarkers, fs (Join (ancestor workingDir k) m) = true) →
      FindProjectRoot fs workingDir =
        some (ancestor workingDir k, markersIn fs (ancestor workingDir k)) := by
    intro fs workingDir k hne hr hm hk
    unfold FindProjectRoot
    rw [if_neg hne]
    exact findProjectRootLoop_found fs workingDir k _ workingDir (walkMeasure_le workingDir) hr
      (fun j hj => markersIn_eq_nil fs _ (hm j hj)) (markersIn_ne_nil fs _ hk)
  refine ⟨main, fun fs workingDir hne hroot hgo => ?_⟩
  have hk : ∃ m ∈ projectMarkers, fs (Join (ancestor workingDir 0) m) = true :=
    ⟨"go.mod".toList, by decide, by
      show fs (Join workingDir "go.mod".toList) = true
      rw [hgo _ (by decide)]
      rfl⟩
  have := main fs workingDir 0 hne
    (fun j hj => by
      have : j = 0 := by omega
      subst this
      exact hroot)
    (fun j hj => absurd hj (Nat.not_lt_zero j)) hk
  rw [this]
  show some (workingDir, markersIn fs workingDir) = _
  unfold markersIn
  rw [filter_map_Join fs workingDir (fun m => m == "go.mod".toList) projectMarkers hgo]
  rfl

/-- C6, witness: the walk from `/srv/app/cmd/tool` passes `/srv/app/cmd` and
stops at `/srv/app`, which holds two markers; the marker further up in `/srv`
is not looked at. -/
theorem FindProjectRoot_first_marker_dir_witness :
    FindProjectRoot (fsOf ["/srv/app/.git", "/srv/app/go.mod", "/srv/package.json"])
        "/srv/app/cmd/tool".toList =
      some ("/srv/app".toList, ["/srv/app/go.mod".toList, "/srv/app/.git".toList]) ∧
    FindProjectRoot (fsOf ["/srv/app/go.mod"]) "/srv/app".toList =
      some ("/srv/app".toList, ["/srv/app/go.mod".toList]) :=
  ⟨FindProjectRoot_first_marker_dir.1
      (fsOf ["/srv/app/.git", "/srv/app/go.mod", "/srv/package.json"])
      "/srv/app/cmd/tool".toList 2 (by decide) (by decide) (by decide) (by decide),
   FindProjectRoot_first_marker_dir.2 (fsOf ["/srv/app/go.mod"]) "/srv/app".toList
      (by decide) (by decide) (by decide)⟩

/-- C6, counterexample: the only marker is `/.git`.  From `/srv/app` the first
directory on the parent chain that holds a marker is `/`, two steps up, and the
result is `/srv/app` without config files.  From the starting path `/`, a
directory that holds `go.mod`, the result has no config files either. -/
theorem FindProjectRoot_root_counterexample :
    (ancestor "/srv/app".toList 2 = "/".toList ∧
      fsOf ["/.git"] (Join "/".toList ".git".toList) = true ∧
      (∀ j, j < 2 → ∀ m ∈ projectMarkers,
        fsOf ["/.git"] (Join (ancestor "/srv/app".toList j) m) = false) ∧
      FindProjectRoot (fsOf ["/.git"]) "/srv/app".toList = some ("/srv/app".toList, [])) ∧
    (fsOf ["/go.mod"] (Join "/".toList "go.mod".toList) = true ∧
      FindProjectRoot (fsOf ["/go.mod"]) "/".toList = some ("/".toList, [])) := by
  decide

/-! ## Service type -/

/-- The tags that `detectTechnology` can return. -/
theorem detectTechnology_tags (tbl : Char → Char) (a : ProcessAnalysis) :
    detectTechnology tbl a = "node".toList ∨ detectTechnology tbl a = "python".toList ∨
    detectTechnology tbl a = "go".toList ∨ detectTechnology tbl a = "java".toList ∨
    detectTechnology tbl a = "postgres".toList ∨ detectTechnology tbl a = "redis".toList ∨
    detectTechnology tbl a = "browser".toList ∨ detectTechnology tbl a = "unknown".toList := by
  rw [detectTechnology_eq]
  split_ifs <;> simp

/-- The runtime case of the switch of `detectServiceType`. -/
theorem detectServiceType_runtime (tbl : Char → Char) (b : ProcessAnalysis)
    (h : b.Technology = "node".toList ∨ b.Technology = "python".toList ∨
      b.Technology = "go".toList ∨ b.Technology = "java".toList) :
    detectServiceType tbl b = if webKeyword tbl b then "web".toList else "cli".toList := by
  unfold detectServiceType
  simp only
  rw [if_pos h]
  rfl

/-- The cases of the switch of `detectServiceType` other than the runtimes. -/
theorem detectServiceType_other (tbl : Char → Char) (b : ProcessAnalysis)
    (h : ¬ (b.Technology = "node".toList ∨ b.Technology = "python".toList ∨
      b.Technology = "go".toList ∨ b.Technology = "java".toList)) :
    detectServiceType tbl b =
      if b.Technology = "postgres".toList ∨ b.Technology = "mysql".toList ∨
          b.Technology = "mongod".toList then "database".toList
      else if b.Technology = "redis".toList ∨ b.Technology = "memcached".toList then
        "cache".toList
      else if b.Technology = "browser".toList then "browser".toList
      else "system".toList := by
  unfold detectServiceType
  simp only
  rw [if_neg h]

theorem classify_ServiceType_eq (tbl : Char → Char) (a : ProcessAnalysis) :
    (classify tbl a).ServiceType =
      detectServiceType tbl { a with Technology := detectTechnology tbl a } := rfl

/-- C11: the service type that `detectServiceType` computes from the technology
computed by `detectTechnology`.  For node, python, go and java it is "web" when
the lower-cased command line contains "server", "start", "run" or "dev", and
"cli" otherwise; for the database technology (postgres) it is "database"; for
the cache technology (redis) it is "cache"; for browser it is "browser"; for
anything else, which is "unknown" only, it is "system".  Both functions are
total and the technology is always one of these eight tags.  The switch itself
gives "database" also for a stored technology mysql or mongod, "cache" also for
memcached, and "system" for every tag it does not name. -/
theorem classify_serviceType (tbl : Char → Char) (a : ProcessAnalysis) :
    (detectTechnology tbl a = "node".toList ∨ detectTechnology tbl a = "python".toList ∨
      detectTechnology tbl a = "go".toList ∨ detectTechnology tbl a = "java".toList ∨
      detectTechnology tbl a = "postgres".toList ∨ detectTechnology tbl a = "redis".toList ∨
      detectTechnology tbl a = "browser".toList ∨
      detectTechnology tbl a = "unknown".toList) ∧
    ((detectTechnology tbl a = "node".toList ∨ detectTechnology tbl a = "python".toList ∨
        detectTechnology tbl a = "go".toList ∨ detectTechnology tbl a = "java".toList) →
      (classify tbl a).ServiceType =
        if webKeyword tbl a then "web".toList else "cli".toList) ∧
    (detectTechnology tbl a = "postgres".toList →
      (classify tbl a).ServiceType = "database".toList) ∧
    (detectTechnology tbl a = "redis".toList →
      (classify tbl a).ServiceType = "cache".toList) ∧
    (detectTechnology tbl a = "browser".toList →
      (classify tbl a).ServiceType = "browser".toList) ∧
    (detectTechnology tbl a = "unknown".toList →
      (classify tbl a).ServiceType = "system".toList) ∧
    (∀ b : ProcessAnalysis,
      ((b.Technology = "node".toList ∨ b.Technology = "python".toList ∨
          b.Technology = "go".toList ∨ b.Technology = "java".toList) →
        detectServiceType tbl b =
          if webKeyword tbl b then "web".toList else "cli".toList) ∧
      ((b.Technology = "postgres".toList ∨ b.Technology = "mysql".toList ∨
          b.Technology = "mongod".toList) → detectServiceType tbl b = "database".toList) ∧
      ((b.Technology = "redis".toList ∨ b.Technology = "memcached".toList) →
        detectServiceType tbl b = "cache".toList) ∧
      (b.Technology = "browser".toList → detectServiceType tbl b = "browser".toList) ∧
      (b.Technology ∉ ["node".toList, "python".toList, "go".toList, "java".toList,
          "postgres".toList, "mysql".toList, "mongod".toList, "redis".toList,
          "memcached".toList, "browser".toList] →
        detectServiceType tbl b = "system".toList)) := by
  have sw : ∀ b : ProcessAnalysis,
      ((b.Technology = "node".toList ∨ b.Technology = "python".toList ∨
          b.Technology = "go".toList ∨ b.Technology = "java".toList) →
        detectServiceType tbl b =
          if webKeyword tbl b then "web".toList else "cli".toList) ∧
      ((b.Technology = "postgres".toList ∨ b.Technology = "mysql".toList ∨
          b.Technology = "mongod".toList) → detectServiceType tbl b = "database".toList) ∧
      ((b.Technology = "redis".toList ∨ b.Technology = "memcached".toList) →
        detectServiceType tbl b = "cache".toList) ∧
      (b.Technology = "browser".toList → detectServiceType tbl b = "browser".toList) ∧
      (b.Technology ∉ ["node".toList, "python".toList, "go".toList, "java".toList,
          "postgres".toList, "mysql".toList, "mongod".toList, "redis".toList,
          "memcached".toList, "browser".toList] →
        detectServiceType tbl b = "system".toList) := by
    intro b
    refine ⟨detectServiceType_runtime tbl b, ?_, ?_, ?_, ?_⟩
    · intro h
      have hn : ¬ (b.Technology = "node".toList ∨ b.Technology = "python".toList ∨
          b.Technology = "go".toList ∨ b.Technology = "java".toList) := by
        rcases h with h | h | h <;> rw [h] <;> decide
      rw [detectServiceType_other tbl b hn, if_pos h]
    · intro h
      have hn : ¬ (b.Technology = "node".toList ∨ b.Technology = "python".toList ∨
          b.Technology = "go".toList ∨ b.Technology = "java".toList) := by
        rcases h with h | h <;> rw [h] <;> decide
      have hd : ¬ (b.Technology = "postgres".toList ∨ b.Technology = "mysql".toList ∨
          b.Technology = "mongod".toList) := by
        rcases h with h | h <;> rw [h] <;> decide
      rw [detectServiceType_other tbl b hn, if_neg hd, if_pos h]
    · intro h
      have hn : ¬ (b.Technology = "node".toList ∨ b.Technology = "python".toList ∨
          b.Technology = "go".toList ∨ b.Technology = "java".toList) := by
        rw [h]; decide
      have hd : ¬ (b.Technology = "postgres".toList ∨ b.Technology = "mysql".toList ∨
          b.Technology = "mongod".toList) := by
        rw [h]; decide
      have hc : ¬ (b.Technology = "redis".toList ∨ b.Technology = "memcached".toList) := by
        rw [h]; decide
      rw [detectServiceType_other tbl b hn, if_neg hd, if_neg hc, if_pos h]
    · intro h
      simp only [List.mem_cons, List.mem_singleton, List.not_mem_nil, or_false,
        not_or] at h
      obtain ⟨h1, h2, h3, h4, h5, h6, h7, h8, h9, h10⟩ := h
      have hn : ¬ (b.Technology = "node".toList ∨ b.Technology = "python".toList ∨
          b.Technology = "go".toList ∨ b.Technology = "java".toList) := by
        rintro (h | h | h | h) <;> contradiction
      have hd : ¬ (b.Technology = "postgres".toList ∨ b.Technology = "mysql".toList ∨
          b.Technology = "mongod".toList) := by
        rintro (h | h | h) <;> contradiction
      have hc : ¬ (b.Technology = "redis".toList ∨ b.Technology = "memcached".toList) := by
        rintro (h | h) <;> contradiction
      rw [detectServiceType_other tbl b hn, if_neg hd, if_neg hc, if_neg h10]
  rw [classify_ServiceType_eq]
  obtain ⟨s1, s2, s3, s4, s5⟩ := sw { a with Technology := detectTechnology tbl a }
  refine ⟨detectTechnology_tags tbl a, s1, fun h => s2 (Or.inl h), fun h => s3 (Or.inl h),
    s4, fun h => s5 ?_, sw⟩
  show detectTechnology tbl a ∉ _
  rw [h]
  decide

/-- C11, witness: a Go tool without an action keyword is a "cli", a Redis
server is a "cache", and a process that no rule matches is a "system"
process. -/
theorem classify_serviceType_witness :
    (classify id (processOf "go" "go build ./...")).ServiceType = "cli".toList ∧
    (classify id (processOf "redis-server" "redis-server *:6379")).ServiceType =
      "cache".toList ∧
    (classify id (processOf "launchd" "/sbin/launchd")).ServiceType = "system".toList :=
  ⟨((classify_serviceType id (processOf "go" "go build ./...")).2.1
      (Or.inr (Or.inr (Or.inl (by decide))))).trans (by decide),
   (classify_serviceType id (processOf "redis-server" "redis-server *:6379")).2.2.2.1
      (by decide),
   (classify_serviceType id (processOf "launchd" "/sbin/launchd")).2.2.2.2.2.1 (by decide)⟩

/-! ## Port check and scan loop -/

/-- `CheckPort` returns a nil `error` on every path. -/
theorem CheckPort_err (sys : System) (port : Int) : (CheckPort sys port).2 = none := by
  unfold CheckPort
  simp only
  split_ifs
  · rfl
  · split <;> rfl

/-- The status of `CheckPort` carries the port it was asked about. -/
theorem CheckPort_Port (sys : System) (port : Int) : (CheckPort sys port).1.Port = port := by
  unfold CheckPort
  simp only
  split_ifs
  · rfl
  · split <;> rfl

/-- The loop of `scanPorts` appends one status per port, in order. -/
theorem scanPortsLoop_eq (check : Nat → Int → PortStatus × Option GoString) :
    ∀ (ports : List Int) (i : Nat) (statuses : List PortStatus),
      scanPortsLoop check i ports statuses = statuses ++ scanStatuses check i ports
  | [], i, statuses => by simp [scanPortsLoop, scanStatuses]
  | port :: rest, i, statuses => by
    rw [scanPortsLoop, scanStatuses]
    unfold scanStatus emptyStatus
    rcases hc : check i port with ⟨st, err⟩
    cases err <;> simp [scanPortsLoop_eq check rest (i + 1)]

theorem length_scanStatuses (check : Nat → Int → PortStatus × Option GoString) :
    ∀ (ports : List Int) (i : Nat), (scanStatuses check i ports).length = ports.length
  | [], _ => rfl
  | port :: rest, i => by
    simp [scanStatuses, length_scanStatuses check rest (i + 1)]

theorem getElem?_scanStatuses (check : Nat → Int → PortStatus × Option GoString) :
    ∀ (ports : List Int) (i k : Nat) (port : Int), ports[k]? = some port →
      (scanStatuses check i ports)[k]? = some (scanStatus port (check (i + k) port))
  | [], _, k, port, h => by simp at h
  | p :: rest, i, 0, port, h => by
    simp only [List.getElem?_cons_zero, Option.some.injEq] at h
    subst h
    simp [scanStatuses]
  | p :: rest, i, k + 1, port, h => by
    simp only [List.getElem?_cons_succ] at h
    have := getElem?_scanStatuses check rest (i + 1) k port h
    simp only [scanStatuses, List.getElem?_cons_succ, this]
    congr 3
    omega

theorem map_Port_scanStatuses (env : Nat → System) :
    ∀ (ports : List Int) (i : Nat),
      (scanStatuses (fun j port => CheckPort (env j) port) i ports).map (fun st => st.Port)
        = ports
  | [], _ => rfl
  | port :: rest, i => by
    simp only [scanStatuses, List.map_cons, map_Port_scanStatuses env rest (i + 1)]
    congr 1
    unfold scanStatus
    simp only [CheckPort_err]
    exact CheckPort_Port (env i) port

/-- C12: the status list built by `scanPorts` has the length of the port
list and its `i`-th status carries the `i`-th port, whatever the system answers
at each call; it is the status that `CheckPort` returns for that port at that
call, also when that status holds an attribution error.  For any checker
behind the interface, the list has the length of the port list, and a call
that returns an error is recorded, at its place, as a status with the port and
the error message. -/
theorem scanPorts_mirrors_input :
    (∀ (env : Nat → System) (ports : List Int),
      (scanPorts env ports).length = ports.length ∧
      (scanPorts env ports).map (fun st => st.Port) = ports ∧
      ∀ (i : Nat) (port : Int), ports[i]? = some port →
        (scanPorts env ports)[i]? = some (CheckPort (env i) port).1) ∧
    (∀ (check : Nat → Int → PortStatus × Option GoString) (ports : List Int),
      (scanPortsLoop check 0 ports []).length = ports.length ∧
      ∀ (i : Nat) (port : Int) (st : PortStatus) (e : GoString),
        ports[i]? = some port → check i port = (st, some e) →
        (scanPortsLoop check 0 ports [])[i]? = some { emptyStatus port with Error := e }) := by
  refine ⟨fun env ports => ⟨?_, ?_, fun i port h => ?_⟩,
    fun check ports => ⟨?_, fun i port st e h hc => ?_⟩⟩
  · unfold scanPorts
    rw [scanPortsLoop_eq, List.nil_append, length_scanStatuses]
  · unfold scanPorts
    rw [scanPortsLoop_eq, List.nil_append, map_Port_scanStatuses]
  · unfold scanPorts
    rw [scanPortsLoop_eq, List.nil_append,
      getElem?_scanStatuses (fun j port => CheckPort (env j) port) ports 0 i port h]
    unfold scanStatus
    simp only [CheckPort_err, Nat.zero_add]
  · rw [scanPortsLoop_eq, List.nil_append, length_scanStatuses]
  · rw [scanPortsLoop_eq, List.nil_append, getElem?_scanStatuses check ports 0 i port h]
    unfold scanStatus
    simp only [Nat.zero_add, hc]

/-- C12, witness: port 3000 is asked twice around the free port 8080, and
`lsof` fails at every call; the statuses keep the order of the ports. -/
theorem scanPorts_mirrors_input_witness :
    (scanPorts (fun _ => systemOf [8080] none none) [3000, 8080, 3000]).map
        (fun st => (st.Port, st.IsAvailable, st.Error)) =
      [(3000, false, "exit status 1".toList), (8080, true, []),
        (3000, false, "exit status 1".toList)] ∧
    (scanPorts (fun _ => systemOf [8080] none none) [3000, 8080, 3000])[1]? =
      some (CheckPort (systemOf [8080] none none) 8080).1 :=
  ⟨by decide,
   (scanPorts_mirrors_input.1 (fun _ => systemOf [8080] none none) [3000, 8080, 3000]).2.2
      1 8080 (by decide)⟩

/-- C13: the process fields of the status returned by `CheckPort`.  When the
bind test succeeds, the status is the port with `IsAvailable` true and every
other field empty or zero.  When the bind test fails and the socket-owner
lookup or its parsing fails with error `e`, the status is the port with the
error `e` and every other field empty, zero or false.  When the lookup gives a
name and a pid, the six process fields are the name, the pid and the answers
of the four attribute queries.  Hence a status in which one of the six fields
is not empty or zero has `IsAvailable` false, no error, and comes from a
successful attribution. -/
theorem CheckPort_process_fields (sys : System) (port : Int) :
    (sys.listen port = true →
      CheckPort sys port = ({ emptyStatus port with IsAvailable := true }, none)) ∧
    (∀ e : GoString, sys.listen port = false → findWithLsof (sys.lsof port) = .error e →
      CheckPort sys port = ({ emptyStatus port with Error := e }, none)) ∧
    (∀ (name : GoString) (pid : Int), sys.listen port = false →
      findWithLsof (sys.lsof port) = .ok (name, pid) →
      CheckPort sys port =
        ({ emptyStatus port with
            ProcessName := name, PID := pid,
            User := getProcessUser (sys.psUser pid),
            CommandLine := getCommandLine (sys.psCommand pid),
            MemoryUsage := getMemoryUsage (sys.psRss pid),
            StartTime := getStartTime (sys.psLstart pid) }, none)) ∧
    (((CheckPort sys port).1.ProcessName ≠ [] ∨ (CheckPort sys port).1.PID ≠ 0 ∨
        (CheckPort sys port).1.User ≠ [] ∨ (CheckPort sys port).1.CommandLine ≠ [] ∨
        (CheckPort sys port).1.MemoryUsage ≠ [] ∨ (CheckPort sys port).1.StartTime ≠ []) →
      (CheckPort sys port).1.IsAvailable = false ∧ (CheckPort sys port).1.Error = [] ∧
      sys.listen port = false ∧
      ∃ name pid, findWithLsof (sys.lsof port) = .ok (name, pid)) := by
  have hfree : sys.listen port = true →
      CheckPort sys port = ({ emptyStatus port with IsAvailable := true }, none) := by
    intro h
    simp only [CheckPort, isPortAvailable, h, if_true]
    rfl
  have herr : ∀ e : GoString, sys.listen port = false →
      findWithLsof (sys.lsof port) = .error e →
      CheckPort sys port = ({ emptyStatus port with Error := e }, none) := by
    intro e h hl
    simp only [CheckPort, isPortAvailable, h, hl]
    rfl
  have hok : ∀ (name : GoString) (pid : Int), sys.listen port = false →
      findWithLsof (sys.lsof port) = .ok (name, pid) →
      CheckPort sys port =
        ({ emptyStatus port with
            ProcessName := name, PID := pid,
            User := getProcessUser (sys.psUser pid),
            CommandLine := getCommandLine (sys.psCommand pid),
            MemoryUsage := getMemoryUsage (sys.psRss pid),
            StartTime := getStartTime (sys.psLstart pid) }, none) := by
    intro name pid h hl
    simp only [CheckPort, isPortAvailable, h, hl]
    rfl
  refine ⟨hfree, herr, hok, fun hpop => ?_⟩
  cases hb : sys.listen port with
  | true =>
    rw [hfree hb] at hpop
    simp [emptyStatus] at hpop
  | false =>
    cases hl : findWithLsof (sys.lsof port) with
    | error e =>
      rw [herr e hb hl] at hpop
      simp [emptyStatus] at hpop
    | ok r =>
      obtain ⟨name, pid⟩ := r
      rw [hok name pid hb hl]
      exact ⟨rfl, rfl, rfl, name, pid, rfl⟩

/-- C13, witness: a free port, a taken port for which `lsof` fails, and a taken
port whose owner is found while every `ps` query fails. -/
theorem CheckPort_process_fields_witness :
    CheckPort (systemOf [8080] none none) 8080 =
      ({ emptyStatus 8080 with IsAvailable := true }, none) ∧
    CheckPort (systemOf [] none none) 8080 =
      ({ emptyStatus 8080 with Error := "exit status 1".toList }, none) ∧
    CheckPort (systemOf [] (some "COMMAND PID USER\nnode 4242 alice\n") none) 8080 =
      ({ emptyStatus 8080 with
          ProcessName := "node".toList, PID := 4242, User := "unknown".toList,
          CommandLine := "unknown".toList, MemoryUsage := "unknown".toList,
          StartTime := "unknown".toList }, none) :=
  ⟨(CheckPort_process_fields (systemOf [8080] none none) 8080).1 (by decide),
   (CheckPort_process_fields (systemOf [] none none) 8080).2.1 _ (by decide) (by decide),
   (CheckPort_process_fields (systemOf [] (some "COMMAND PID USER\nnode 4242 alice\n") none)
      8080).2.2.1 "node".toList 4242 (by decide) (by decide)⟩

/-! ## Connected sockets in the descriptor listing -/

/-- C15: a descriptor row whose ninth field has the connected-socket form
`laddr:lport->raddr:rport`.  The loop body takes the text after the final
colon: the port that the row carries is the remote port, the row adds that
port and nothing else to the list, so a local port that differs from it and is
not in the list before the row is not in it after the row.  The row
`127.0.0.1:5000->127.0.0.1:6000` alone gives the list `[6000]`. -/
theorem extractLine_connected_socket :
    (∀ (line : GoString) (fs more : List GoString) (laddr lport raddr rport : GoString)
        (l r : Int),
      Fields line =
        fs ++ ((laddr ++ ':' :: lport ++ "->".toList ++ raddr) ++ ':' :: rport) :: more →
      fs.length = 8 → ':' ∉ rport → Atoi lport = some l → Atoi rport = some r →
      linePort line = some r ∧
      ∀ ports : List Int, extractLine line ports = addPort ports r ∧
        (l ≠ r → l ∉ ports → l ∉ extractLine line ports)) ∧
    ExtractPortsFromProcess (.ok
      "COMMAND PID USER FD TYPE DEVICE SIZE/OFF NODE NAME\nnode 1 u 5u IPv4 0x1 0t0 TCP 127.0.0.1:5000->127.0.0.1:6000 (ESTABLISHED)\n".toList)
      = .ok [6000] := by
  refine ⟨?_, by decide⟩
  intro line fs more laddr lport raddr rport l r hf h8 hc _ hr
  have hp : linePort line = some r :=
    linePort_of_field line fs more (laddr ++ ':' :: lport ++ "->".toList ++ raddr) rport r
      hf h8 hc hr
  refine ⟨hp, fun ports => ?_⟩
  have he : extractLine line ports = addPort ports r := by
    rw [extractLine_eq, hp]
  refine ⟨he, fun hlr hl => ?_⟩
  rw [he]
  unfold addPort
  split_ifs
  · exact hl
  · intro hm
    rcases List.mem_append.1 hm with hm | hm
    · exact hl hm
    · exact hlr (List.mem_singleton.1 hm)

/-- C15, witness: an IPv6 connection from local port 52311 to remote port 443,
met when port 3000 is already in the list. -/
theorem extractLine_connected_socket_witness :
    linePort "curl 9 u 5u IPv6 0x1 0t0 TCP [::1]:52311->[::1]:443 (ESTABLISHED)".toList =
      some 443 ∧
    extractLine "curl 9 u 5u IPv6 0x1 0t0 TCP [::1]:52311->[::1]:443 (ESTABLISHED)".toList
      [3000] = [3000, 443] :=
  have h := extractLine_connected_socket.1
    "curl 9 u 5u IPv6 0x1 0t0 TCP [::1]:52311->[::1]:443 (ESTABLISHED)".toList
    ["curl".toList, "9".toList, "u".toList, "5u".toList, "IPv6".toList, "0x1".toList,
      "0t0".toList, "TCP".toList] ["(ESTABLISHED)".toList]
    "[::1]".toList "52311".toList "[::1]".toList "443".toList 52311 443
    (by decide) (by decide) (by decide) (by decide) (by decide)
  ⟨h.1, (h.2 [3000]).1⟩

/-! ## Case of the classified text -/

/-- The technology depends on the name and the command line only through
their lower-cased forms. -/
theorem detectTechnology_congr (tbl : Char → Char) (a b : ProcessAnalysis)
    (hn : ToLower tbl b.Name = ToLower tbl a.Name)
    (hc : ToLower tbl b.CommandLine = ToLower tbl a.CommandLine) :
    detectTechnology tbl b = detectTechnology tbl a := by
  simp only [detectTechnology, hn, hc]

/-- The service type depends on the name and the command line only through
their lower-cased forms. -/
theorem classify_congr (tbl : Char → Char) (a b : ProcessAnalysis)
    (hn : ToLower tbl b.Name = ToLower tbl a.Name)
    (hc : ToLower tbl b.CommandLine = ToLower tbl a.CommandLine) :
    (classify tbl b).ServiceType = (classify tbl a).ServiceType := by
  rw [classify_ServiceType_eq, classify_ServiceType_eq]
  simp only [detectServiceType, detectTechnology_congr tbl a b hn hc, hc]

/-- On ASCII code points lower-casing undoes upper-casing and is idempotent,
whatever the case tables. -/
theorem ascii_case (tbl utbl : Char → Char) (c : Char) (h : c.toNat < 128) :
    toLowerRune tbl (toUpperRune utbl c) = toLowerRune tbl c ∧
    toLowerRune tbl (toLowerRune tbl c) = toLowerRune tbl c := by
  obtain ⟨n, hn, rfl⟩ : ∃ n, n < 128 ∧ c = Char.ofNat n :=
    ⟨c.toNat, h, (Char.ofNat_toNat c).symm⟩
  interval_cases n <;> exact ⟨rfl, rfl⟩

theorem ToLower_map (tbl : Char → Char) (f : Char → Char) (s : GoString)
    (h : ∀ c ∈ s, toLowerRune tbl (f c) = toLowerRune tbl c) :
    ToLower tbl (s.map f) = ToLower tbl s := by
  unfold ToLower
  rw [List.map_map]
  exact List.map_congr_left (fun c hc => h c hc)

/-- C14, as the code has it: the classification reads the name and the command
line only through `strings.ToLower`, so two inputs whose lower-cased names and
command lines agree get the same technology and service type.  The tags of the
lower-cased name and command line are those of the originals when lower-casing
a lower-cased code point of the text changes nothing, and the tags of the
upper-cased ones are those of the originals when lower-casing undoes the
upper-casing of every code point of the text.  Both hold for every ASCII text,
whatever the case tables. -/
theorem classification_case_insensitive :
    (∀ (tbl : Char → Char) (a b : ProcessAnalysis),
      ToLower tbl b.Name = ToLower tbl a.Name →
      ToLower tbl b.CommandLine = ToLower tbl a.CommandLine →
      detectTechnology tbl b = detectTechnology tbl a ∧
      (classify tbl b).ServiceType = (classify tbl a).ServiceType) ∧
    (∀ (tbl : Char → Char) (a : ProcessAnalysis),
      (∀ c ∈ a.Name ++ a.CommandLine,
        toLowerRune tbl (toLowerRune tbl c) = toLowerRune tbl c) →
      detectTechnology tbl (withText a (ToLower tbl a.Name) (ToLower tbl a.CommandLine)) =
        detectTechnology tbl a ∧
      (classify tbl
          (withText a (ToLower tbl a.Name) (ToLower tbl a.CommandLine))).ServiceType =
        (classify tbl a).ServiceType) ∧
    (∀ (tbl utbl : Char → Char) (a : ProcessAnalysis),
      (∀ c ∈ a.Name ++ a.CommandLine,
        toLowerRune tbl (toUpperRune utbl c) = toLowerRune tbl c) →
      detectTechnology tbl (withText a (ToUpper utbl a.Name) (ToUpper utbl a.CommandLine)) =
        detectTechnology tbl a ∧
      (classify tbl
          (withText a (ToUpper utbl a.Name) (ToUpper utbl a.CommandLine))).ServiceType =
        (classify tbl a).ServiceType) ∧
    (∀ (tbl utbl : Char → Char) (a : ProcessAnalysis),
      (∀ c ∈ a.Name ++ a.CommandLine, c.toNat < 128) →
      (detectTechnology tbl (withText a (ToLower tbl a.Name) (ToLower tbl a.CommandLine)) =
          detectTechnology tbl a ∧
        (classify tbl
            (withText a (ToLower tbl a.Name) (ToLower tbl a.CommandLine))).ServiceType =
          (classify tbl a).ServiceType) ∧
      (detectTechnology tbl (withText a (ToUpper utbl a.Name) (ToUpper utbl a.CommandLine)) =
          detectTechnology tbl a ∧
        (classify tbl
            (withText a (ToUpper utbl a.Name) (ToUpper utbl a.CommandLine))).ServiceType =
          (classify tbl a).ServiceType)) := by
  have hA : ∀ (tbl : Char → Char) (a b : ProcessAnalysis),
      ToLower tbl b.Name = ToLower tbl a.Name →
      ToLower tbl b.CommandLine = ToLower tbl a.CommandLine →
      detectTechnology tbl b = detectTechnology tbl a ∧
      (classify tbl b).ServiceType = (classify tbl a).ServiceType :=
    fun tbl a b hn hc => ⟨detectTechnology_congr tbl a b hn hc, classify_congr tbl a b hn hc⟩
  have hmap : ∀ (tbl f : Char → Char) (a : ProcessAnalysis),
      (∀ c ∈ a.Name ++ a.CommandLine, toLowerRune tbl (f c) = toLowerRune tbl c) →
      detectTechnology tbl (withText a (a.Name.map f) (a.CommandLine.map f)) =
        detectTechnology tbl a ∧
      (classify tbl (withText a (a.Name.map f) (a.CommandLine.map f))).ServiceType =
        (classify tbl a).ServiceType := by
    intro tbl f a h
    apply hA
    · exact ToLower_map tbl f a.Name (fun c hc => h c (List.mem_append_left _ hc))
    · exact ToLower_map tbl f a.CommandLine (fun c hc => h c (List.mem_append_right _ hc))
  refine ⟨hA, fun tbl a h => hmap tbl (toLowerRune tbl) a h,
    fun tbl utbl a h => hmap tbl (toUpperRune utbl) a h, fun tbl utbl a h => ⟨?_, ?_⟩⟩
  · exact hmap tbl (toLowerRune tbl) a (fun c hc => (ascii_case tbl utbl c (h c hc)).2)
  · exact hmap tbl (toUpperRune utbl) a (fun c hc => (ascii_case tbl utbl c (h c hc)).1)

/-- C14, witness: `Node Server.JS` started by `Node`, lower-cased and
upper-cased. -/
theorem classification_case_insensitive_witness :
    (detectTechnology id (processOf "node" "node server.js") =
        detectTechnology id (processOf "Node" "Node Server.JS") ∧
      (classify id (processOf "node" "node server.js")).ServiceType =
        (classify id (processOf "Node" "Node Server.JS")).ServiceType) ∧
    (detectTechnology id (processOf "NODE" "NODE SERVER.JS") =
        detectTechnology id (processOf "Node" "Node Server.JS") ∧
      (classify id (processOf "NODE" "NODE SERVER.JS")).ServiceType =
        (classify id (processOf "Node" "Node Server.JS")).ServiceType) :=
  ⟨(classification_case_insensitive.2.2.2 id id (processOf "Node" "Node Server.JS")
      (by decide)).1,
   (classification_case_insensitive.2.2.2 id id (processOf "Node" "Node Server.JS")
      (by decide)).2⟩

/-- C14, counterexample: the dotless i (U+0131).  Its upper case is the ASCII
`I`, so the upper-cased form of `redıs-server` is `REDIS-SERVER`; its lower
case is itself.  The original name and command line are classified
unknown/system and the upper-cased ones redis/cache. -/
theorem classification_upper_counterexample :
    (∀ utbl : Char → Char, utbl (Char.ofNat 0x131) = 'I' →
      ToUpper utbl "red\u0131s-server".toList = "REDIS-SERVER".toList) ∧
    (∀ tbl : Char → Char, tbl (Char.ofNat 0x131) = Char.ofNat 0x131 →
      detectTechnology tbl (processOf "red\u0131s-server" "red\u0131s-server") =
        "unknown".toList ∧
      (classify tbl (processOf "red\u0131s-server" "red\u0131s-server")).ServiceType =
        "system".toList) ∧
    (∀ tbl : Char → Char,
      detectTechnology tbl (processOf "REDIS-SERVER" "REDIS-SERVER") = "redis".toList ∧
      (classify tbl (processOf "REDIS-SERVER" "REDIS-SERVER")).ServiceType =
        "cache".toList) := by
  refine ⟨fun utbl h => ?_, fun tbl h => ?_, fun tbl => ⟨rfl, rfl⟩⟩
  · have hu : ToUpper utbl "red\u0131s-server".toList =
        ['R', 'E', 'D', utbl (Char.ofNat 0x131), 'S', '-', 'S', 'E', 'R', 'V', 'E', 'R'] := rfl
    rw [hu, h]
    rfl
  · have hl : ToLower tbl "red\u0131s-server".toList = "red\u0131s-server".toList := by
      have : ToLower tbl "red\u0131s-server".toList =
          ['r', 'e', 'd', tbl (Char.ofNat 0x131), 's', '-', 's', 'e', 'r', 'v', 'e', 'r'] := rfl
      rw [this, h]
      rfl
    have ht : detectTechnology tbl (processOf "red\u0131s-server" "red\u0131s-server") =
        "unknown".toList := by
      unfold detectTechnology
      simp only [processOf, hl]
      rfl
    refine ⟨ht, ?_⟩
    rw [classify_ServiceType_eq, ht]
    rfl

end PortScanner
